import Mathlib

/-!
# Verification of `cdk-imports-swap`

A shallow embedding of `src/cdk-imports-swap.ts`, the utility that rewrites
CloudFormation `Fn::ImportValue` references from synthetic `ExportsOutputFn*`
export names to equivalent named exports, together with proofs about it.

JavaScript values read from `JSON.parse` are modelled by the inductive type
`J` below: JSON objects are association lists of string keys in insertion
order (JS objects preserve string-key insertion order, and `JSON.parse` /
`JSON.stringify` preserve it), numbers are integers (the templates the tool
operates on contain no fractional scalars), and possibly-missing properties
are `Option J` (missing = JS `undefined`).
-/

/-- A parsed JSON document tree, as produced by `JSON.parse`. -/
inductive J where
  | null : J
  | bool (b : Bool) : J
  | num (n : Int) : J
  | str (s : String) : J
  | arr (elems : List J) : J
  | obj (fields : List (String × J)) : J

mutual
/-- Boolean structural equality on `J` (same constructors, same scalars,
same elements, object fields with the same keys in the same order). -/
def jeq : J → J → Bool
  | .null, .null => true
  | .bool a, .bool b => a == b
  | .num a, .num b => a == b
  | .str a, .str b => a == b
  | .arr xs, .arr ys => jeqL xs ys
  | .obj fs, .obj gs => jeqF fs gs
  | _, _ => false

def jeqL : List J → List J → Bool
  | [], [] => true
  | x :: xs, y :: ys => jeq x y && jeqL xs ys
  | _, _ => false

def jeqF : List (String × J) → List (String × J) → Bool
  | [], [] => true
  | (k, v) :: fs, (l, w) :: gs => k == l && jeq v w && jeqF fs gs
  | _, _ => false
end

/-- Structural induction principle for `J` giving pointwise hypotheses for
the elements of arrays and the field values of objects. -/
def J.inductionOn {P : J → Prop}
    (hnull : P .null) (hbool : ∀ b, P (.bool b)) (hnum : ∀ n, P (.num n))
    (hstr : ∀ s, P (.str s))
    (harr : ∀ elems, (∀ x ∈ elems, P x) → P (.arr elems))
    (hobj : ∀ fields, (∀ p ∈ fields, P p.2) → P (.obj fields)) :
    ∀ t, P t
  | .null => hnull
  | .bool b => hbool b
  | .num n => hnum n
  | .str s => hstr s
  | .arr elems => harr elems (fun x hx =>
      J.inductionOn hnull hbool hnum hstr harr hobj x)
  | .obj fields => hobj fields (fun p hp =>
      J.inductionOn hnull hbool hnum hstr harr hobj p.2)
termination_by t => sizeOf t
decreasing_by
  · have := List.sizeOf_lt_of_mem hx
    simp only [J.arr.sizeOf_spec]
    omega
  · have h1 := List.sizeOf_lt_of_mem hp
    have h2 : sizeOf p.2 < sizeOf p := by
      obtain ⟨a, b⟩ := p
      simp only [Prod.mk.sizeOf_spec]
      omega
    simp only [J.obj.sizeOf_spec]
    omega

/-- Source `jeq` decides propositional equality. -/
def jeq_iff_eq : ∀ a b : J, jeq a b = true ↔ a = b := by
  intro a
  induction a using J.inductionOn with
  | hnull => intro b; cases b <;> simp [jeq]
  | hbool x => intro b; cases b <;> simp [jeq]
  | hnum x => intro b; cases b <;> simp [jeq]
  | hstr x => intro b; cases b <;> simp [jeq]
  | harr elems ih =>
    intro b; cases b <;> simp [jeq]
    rename_i ys
    induction elems generalizing ys with
    | nil => cases ys <;> simp [jeqL]
    | cons x xs ihl =>
      cases ys with
      | nil => simp [jeqL]
      | cons y ys =>
        simp only [jeqL, Bool.and_eq_true, List.cons.injEq]
        rw [ih x (by simp), ihl (fun z hz => ih z (by simp [hz])) ys]
  | hobj fields ih =>
    intro b; cases b <;> simp [jeq]
    rename_i gs
    induction fields generalizing gs with
    | nil => cases gs <;> simp [jeqF]
    | cons f fs ihl =>
      cases gs with
      | nil => simp [jeqF]
      | cons g gs =>
        obtain ⟨k, v⟩ := f
        obtain ⟨l, w⟩ := g
        simp only [jeqF, Bool.and_eq_true, List.cons.injEq, beq_iff_eq,
          Prod.mk.injEq]
        rw [ih (k, v) (by simp), ihl (fun z hz => ih z (by simp [hz])) gs]

instance : DecidableEq J := fun a b =>
  decidable_of_iff (jeq a b = true) (jeq_iff_eq a b)

/-- JS property read `v[k]` for a string key: on an object, the value of the
(first, and in parsed documents unique) field named `k`; on every other
value the properties read by this program are absent, giving `undefined`
(`none`). (Arrays have only index keys, and the program never reads an index
key by name.) -/
def jlookup (v : J) (k : String) : Option J :=
  match v with
  | .obj fields => (fields.find? (fun p => p.1 == k)).map (·.2)
  | _ => none

/-- JS truthiness of a possibly-`undefined` value: `undefined`, `null`,
`false`, `0` and `""` are falsy, everything else is truthy. -/
def truthy : Option J → Bool
  | none => false
  | some .null => false
  | some (.bool b) => b
  | some (.num n) => n != 0
  | some (.str s) => s != ""
  | some (.arr _) => true
  | some (.obj _) => true

/-- Source `Object.entries(v)`: the own enumerable string-keyed entries of `v` in
order — an object's fields, an array's elements under their decimal index
keys, and nothing for primitives. (For a string JS would yield its
characters under index keys; no property this program reads exists on those
one-character strings, so the empty list is observationally equivalent.) -/
def jEntries (v : J) : List (String × J) :=
  match v with
  | .obj fields => fields
  | .arr elems => elems.enum.map (fun p => (toString p.1, p.2))
  | _ => []

/-- Source `a.includes(b)` on JS strings: `b` occurs in `a` as a contiguous
substring. -/
def sIncludes (a b : String) : Bool :=
  decide (b.data <:+: a.data)

/-- Source `a.startsWith(b)` on JS strings: `b` is a prefix of `a`. -/
def sStartsWith (a b : String) : Bool :=
  b.data.isPrefixOf a.data

mutual
/-- JS `String(v)` on a defined value, as used for property-key coercion:
scalars print themselves, arrays join their elements with `","` (with
`null` elements printing as empty), plain objects print
`"[object Object]"`. -/
def jsToStr : J → String
  | .null => "null"
  | .bool true => "true"
  | .bool false => "false"
  | .num n => toString n
  | .str s => s
  | .arr elems => String.intercalate "," (jsKeyList elems)
  | .obj _ => "[object Object]"

def jsKeyList : List J → List String
  | [] => []
  | .null :: rest => "" :: jsKeyList rest
  | v :: rest => jsToStr v :: jsKeyList rest
end

/-- String conversion applied by JS when a possibly-`undefined` value is
used as a property key (`ToPropertyKey`). -/
def jsKeyOf : Option J → String
  | none => "undefined"
  | some v => jsToStr v

/-- Property read on a possibly-`undefined` value (`v.k` where `v` may be
any JS value); reading a property of `undefined` would throw, but the
program only does this after a truthiness check, so `none` here models the
result of `.k` on a defined non-object value. -/
def optLookup (v : Option J) (k : String) : Option J :=
  match v with
  | some w => jlookup w k
  | none => none

/-- JS plain-object assignment `m[k] = v` on a string-keyed record:
overwrites the value of the (unique) existing key `k` in place, keeping its
position in insertion order; appends a new key at the end. -/
def recInsert : List (String × α) → String → α → List (String × α)
  | [], k, v => [(k, v)]
  | p :: rest, k, v =>
    if p.1 == k then (k, v) :: rest else p :: recInsert rest k v

/-- JS record read `m[k]`: `undefined` (`none`) when the key is absent. -/
def rlookup (m : List (String × α)) (k : String) : Option α :=
  (m.find? (fun p => p.1 == k)).map (·.2)

/-- Truthiness of `m[k]` for a string-valued record: the key is present and
its value is a nonempty string. -/
def rsTruthy (m : List (String × String)) (k : String) : Bool :=
  match rlookup m k with
  | some v => v != ""
  | none => false

/-- Source `Object.assign(dst, src)`: copy every entry of `src` into `dst` in
order. -/
def objAssign (dst src : List (String × α)) : List (String × α) :=
  src.foldl (fun d p => recInsert d p.1 p.2) dst

/-- Source `ExportsOutputFnData` (synthetic export record): the raw
`output.Export.Name` and `output.Value` property reads. -/
structure ExportsOutputFnData where
  exportName : Option J
  value : Option J
  deriving DecidableEq

/-- Source `NamedExportData`. -/
structure NamedExportData where
  key : String
  value : Option J
  deriving DecidableEq

/-- Source `ImportData`: one reference occurrence recorded by the scanner. -/
structure ImportData where
  path : String
  value : String
  deriving DecidableEq

/-- Source `AnalysisResult`. -/
structure AnalysisResult where
  exportsOutputFn : List (String × ExportsOutputFnData)
  namedExports : List (String × NamedExportData)
  imports : List ImportData
  content : J
  filePath : String
  deriving DecidableEq

/-- One iteration of the export-classification loop of `analyzeTemplate`:
for a `[key, output]` entry of `Object.entries(outputs)`, a key starting
with `"ExportsOutputFn"` with a truthy `output.Export` becomes a synthetic
record under its declaration key; otherwise a truthy `output.Export`
becomes a named record indexed by `output.Export.Name` (coerced to a
property key). -/
def analyzeOutputsStep
    (acc : List (String × ExportsOutputFnData) × List (String × NamedExportData))
    (e : String × J) :
    List (String × ExportsOutputFnData) × List (String × NamedExportData) :=
  let key := e.1
  let output := e.2
  let exp := jlookup output "Export"
  if sStartsWith key "ExportsOutputFn" && truthy exp then
    (recInsert acc.1 key ⟨optLookup exp "Name", jlookup output "Value"⟩,
     acc.2)
  else if truthy exp && !(sStartsWith key "ExportsOutputFn") then
    (acc.1,
     recInsert acc.2 (jsKeyOf (optLookup exp "Name"))
       ⟨key, jlookup output "Value"⟩)
  else acc

/-- The export-classification loop of `analyzeTemplate`, starting from two
empty records. -/
def analyzeOutputs (outputs : List (String × J)) :
    List (String × ExportsOutputFnData) × List (String × NamedExportData) :=
  outputs.foldl analyzeOutputsStep ([], [])

/-- The JS path-accumulation expression
`path ? path + "." + key : key` (an empty string is falsy). -/
def extendPath (p k : String) : String :=
  if p == "" then k else p ++ "." ++ k

/-- The marker test shared by the scanner and the rewriter: the chain
`if (obj['Fn::ImportValue'])` (truthiness) then
`typeof importValue === 'string'`; yields the target string when both hold.
A truthy string is exactly a nonempty one. -/
def markerTarget (v : J) : Option String :=
  match jlookup v "Fn::ImportValue" with
  | some (.str s) => if s == "" then none else some s
  | _ => none

mutual
/-- Source `findImports` from `analyzeTemplate`. The source is one recursive
function over every `typeof obj === 'object' && obj !== null` value, i.e.
objects and arrays; a by-name property read on an array is `undefined`, so
the marker branch can only fire on an object and is written in that case
only. Children are visited in `Object.entries` order (declaration order for
objects, index order for arrays), after the marker check. -/
def findImportsJ : J → String → List ImportData
  | .obj fs, p =>
    (match markerTarget (.obj fs) with
     | some s => if sIncludes s "ExportsOutputFn" then [⟨p, s⟩] else []
     | none => []) ++ findImportsF fs p
  | .arr xs, p => findImportsA xs 0 p
  | _, _ => []

def findImportsF : List (String × J) → String → List ImportData
  | [], _ => []
  | (k, v) :: rest, p => findImportsJ v (extendPath p k) ++ findImportsF rest p

def findImportsA : List J → Nat → String → List ImportData
  | [], _, _ => []
  | x :: rest, i, p =>
    findImportsJ x (extendPath p (toString i)) ++ findImportsA rest (i + 1) p
end

/-- Source `content.Outputs || {}`. -/
def outputsOf (content : J) : J :=
  if truthy (jlookup content "Outputs") then (jlookup content "Outputs").getD .null
  else .obj []

/-- Source `analyzeTemplate` on an already-parsed document
(`JSON.parse(fs.readFileSync(filePath))` is the caller's `parseAll` step):
`content.Outputs || {}`, the export classification loop, and the recursive
scan for imports started at the root with an empty path. -/
def analyzeTemplate (filePath : String) (content : J) : AnalysisResult :=
  let outputs := outputsOf content
  let cls := analyzeOutputs (jEntries outputs)
  { exportsOutputFn := cls.1, namedExports := cls.2,
    imports := findImportsJ content "", content := content,
    filePath := filePath }

/-- Source `findMatchingNamedExport`. The source compares
`JSON.stringify(namedExport.value) === JSON.stringify(exportsOutputFnValue)`.
On this value domain `JSON.stringify` is injective — distinct scalars
serialize distinctly, strings are quoted and escaped, and object fields are
serialized in insertion order — and `JSON.stringify(undefined)` is the JS
value `undefined`, which `===`-equals only itself; equality of the
serializations therefore coincides with equality in `Option J`, which is how
the comparison is modelled. -/
def findMatchingNamedExport (exportsOutputFnKey : String)
    (exportsOutputFnValue : Option J)
    (allNamedExports : List (String × NamedExportData)) : Option String :=
  match allNamedExports with
  | [] => none
  | (exportName, namedExport) :: rest =>
    if namedExport.value = exportsOutputFnValue then some exportName
    else findMatchingNamedExport exportsOutputFnKey exportsOutputFnValue rest

/-- JS property assignment `obj['Fn::ImportValue'] = v` on an object that
has the key: the existing property's value is updated in place. -/
def assignKey : List (String × J) → String → J → List (String × J)
  | [], _, _ => []
  | (k, x) :: rest, key, v =>
    if k == key then (k, v) :: rest else (k, x) :: assignKey rest key v

mutual
/-- Source `replaceImportsInObject`, functionally: the mutated tree together with
the returned `changed` flag. When the marker fires and
`replacements[importValue]` is truthy the target string is overwritten and
the function returns `true` immediately — without visiting the object's
other entries; otherwise every value of the node is visited in order and
the flags are or-ed. -/
def replaceImportsInObject : J → List (String × String) → J × Bool
  | .obj fs, repl =>
    (match markerTarget (.obj fs) with
     | some s =>
       match rlookup repl s with
       | some r =>
         if r == "" then
           let q := replaceImportsF fs repl
           (.obj q.1, q.2)
         else (.obj (assignKey fs "Fn::ImportValue" (.str r)), true)
       | none =>
         let q := replaceImportsF fs repl
         (.obj q.1, q.2)
     | none =>
       let q := replaceImportsF fs repl
       (.obj q.1, q.2))
  | .arr xs, repl =>
    let q := replaceImportsA xs repl
    (.arr q.1, q.2)
  | v, _ => (v, false)

def replaceImportsF :
    List (String × J) → List (String × String) → List (String × J) × Bool
  | [], _ => ([], false)
  | (k, v) :: rest, repl =>
    let q := replaceImportsInObject v repl
    let qr := replaceImportsF rest repl
    ((k, q.1) :: qr.1, q.2 || qr.2)

def replaceImportsA : List J → List (String × String) → List J × Bool
  | [], _ => ([], false)
  | x :: rest, repl =>
    let q := replaceImportsInObject x repl
    let qr := replaceImportsA rest repl
    (q.1 :: qr.1, q.2 || qr.2)
end

/-- Source `templateFiles.map(analyzeTemplate)` over already-parsed documents. -/
def analysesOf (docs : List (String × J)) : List AnalysisResult :=
  docs.map (fun d => analyzeTemplate d.1 d.2)

/-- The catalog-merging loop of `main`:
`Object.assign(allNamedExports, analysis.namedExports)` over all analyses. -/
def allNamedExportsOf (analyses : List AnalysisResult) :
    List (String × NamedExportData) :=
  analyses.foldl (fun acc a => objAssign acc a.namedExports) []

/-- One step of the match loop of `main`: on a truthy `matchingNamed`,
`replacements[exportsData.exportName] = matchingNamed` and
`matchCount++`. -/
def resolveStep (allNamed : List (String × NamedExportData))
    (acc : List (String × String) × Nat) (e : String × ExportsOutputFnData) :
    List (String × String) × Nat :=
  match findMatchingNamedExport e.1 e.2.value allNamed with
  | some m => if m == "" then acc else (recInsert acc.1 (jsKeyOf e.2.exportName) m, acc.2 + 1)
  | none => acc

/-- The full match phase of `main`: the nested loops over every analysis's
`exportsOutputFn` entries, producing `(replacements, matchCount)`. -/
def replacementsAndCount (analyses : List AnalysisResult) :
    List (String × String) × Nat :=
  analyses.foldl
    (fun acc a => a.exportsOutputFn.foldl (resolveStep (allNamedExportsOf analyses)) acc)
    ([], 0)

/-- The observable outcome of a run: the `writeFileSync` calls (path and
new document tree, in order) and the reported counters. -/
structure RunResult where
  writes : List (String × J)
  totalReplacements : Nat
  matchCount : Nat
  deriving DecidableEq

/-- One iteration of the apply loop of `main` for one analysis:
`fileChanged` becomes true (and `totalReplacements` is incremented) once
per recorded import whose value has a truthy replacement; if `fileChanged`,
the document tree is rewritten and persisted iff the rewriter reported a
change. -/
def applyStep (repl : List (String × String))
    (acc : List (String × J) × Nat) (a : AnalysisResult) :
    List (String × J) × Nat :=
  let hits := a.imports.filter (fun imp => rsTruthy repl imp.value)
  let acc2 := (acc.1, acc.2 + hits.length)
  if hits.isEmpty then acc2
  else
    let q := replaceImportsInObject a.content repl
    if q.2 then (acc2.1 ++ [(a.filePath, q.1)], acc2.2) else acc2

/-- Source `main` from the point where all documents are parsed: analysis, catalog
merge, match phase, the `matchCount === 0` early return, and the apply
phase. -/
def runPipeline (docs : List (String × J)) : RunResult :=
  let analyses := analysesOf docs
  let rc := replacementsAndCount analyses
  if rc.2 = 0 then ⟨[], 0, 0⟩
  else
    let aw := analyses.foldl (applyStep rc.1) ([], 0)
    ⟨aw.1, aw.2, rc.2⟩

/-- The parse step `templateFiles.map(analyzeTemplate)`: every file is
parsed before any later phase runs, and a single invalid file throws,
aborting the whole run (files are processed in order and the exception
escapes at the first invalid one). A file is `(path, some tree)` when its
bytes parse and `(path, none)` when they do not. -/
def parseAll : List (String × Option J) → Except Unit (List (String × J))
  | [] => .ok []
  | (p, some j) :: rest => (parseAll rest).map (fun l => (p, j) :: l)
  | (_, none) :: _ => .error ()

/-- The whole run of `main` on a set of discovered template files: parse
everything, then run the pipeline. An `Except.error` is an uncaught
`SyntaxError` escaping from `JSON.parse`; since every `writeFileSync` in the
source occurs after the `templateFiles.map(analyzeTemplate)` line, an error
run performs no writes (there is no `RunResult`, hence no write list, in the
error case). -/
def mainRun (files : List (String × Option J)) : Except Unit RunResult :=
  (parseAll files).map runPipeline

/-- The document set as run 2 sees it: each written file holds the
serialization of its rewritten tree, which parses back to that same tree
(`JSON.parse ∘ JSON.stringify` is the identity on this value domain);
`writeFileSync` leaves the last write for a path in place. Unwritten files
are untouched. -/
def applyWrites (docs : List (String × J)) (writes : List (String × J)) :
    List (String × J) :=
  docs.map (fun f =>
    match writes.reverse.find? (fun w => w.1 == f.1) with
    | some w => (f.1, w.2)
    | none => f)


/-! ## Specification-side definitions

The definitions below formalize the vocabulary of the specification's
properties (structural equality, "every node of the tree", the rewrite as
specified) and the well-formedness conditions of parsed CloudFormation
documents. They are compared against the embedded source functions by the
theorems at the end of the file. -/

/-- Lexicographic comparison of character lists by code point. -/
def charListLe : List Char → List Char → Bool
  | [], _ => true
  | _ :: _, [] => false
  | a :: as, b :: bs =>
    if a.toNat < b.toNat then true
    else if b.toNat < a.toNat then false
    else charListLe as bs

/-- Lexicographic key order used for canonicalization. -/
def keyLe (a b : String) : Bool := charListLe a.data b.data

/-- Insert a field into a key-sorted field list. -/
def insertByKey (p : String × J) : List (String × J) → List (String × J)
  | [] => [p]
  | q :: rest => if keyLe p.1 q.1 then p :: q :: rest else q :: insertByKey p rest

/-- Sort a field list by key (insertion sort). -/
def sortByKey : List (String × J) → List (String × J)
  | [] => []
  | p :: rest => insertByKey p (sortByKey rest)

mutual
/-- Canonical form of a value tree: every mapping's fields sorted by key,
recursively. Two trees "contain the same keys/elements with the same
scalars, independent of key declaration order" exactly when their canonical
forms are equal. -/
def canon : J → J
  | .null => .null
  | .bool b => .bool b
  | .num n => .num n
  | .str s => .str s
  | .arr xs => .arr (canonL xs)
  | .obj fs => .obj (sortByKey (canonF fs))

def canonL : List J → List J
  | [] => []
  | x :: rest => canon x :: canonL rest

def canonF : List (String × J) → List (String × J)
  | [] => []
  | (k, v) :: rest => (k, canon v) :: canonF rest
end

/-- Structural equality of value trees in the specification's sense: same
keys/elements with the same scalars, with mapping-key declaration order
irrelevant. -/
def structEq (a b : J) : Bool := canon a = canon b

/-- Structural equality lifted to possibly-missing values. -/
def structEqO : Option J → Option J → Bool
  | some a, some b => structEq a b
  | none, none => true
  | _, _ => false

/-- A character as `JSON.stringify` emits it inside a string literal
(quotation marks and backslashes are escaped; control characters, which do
not occur in this development, are not modelled). -/
def escChar (c : Char) : String :=
  if c = '"' || c = '\\' then "\\" ++ String.singleton c else String.singleton c

/-- A string literal as `JSON.stringify` emits it. -/
def escString (s : String) : String :=
  "\"" ++ String.join (s.data.map escChar) ++ "\""

mutual
/-- Source `JSON.stringify` (compact form, as called by `findMatchingNamedExport`):
fields in insertion order, integers in decimal, strings quoted. -/
def jstringify : J → String
  | .null => "null"
  | .bool true => "true"
  | .bool false => "false"
  | .num n => toString n
  | .str s => escString s
  | .arr xs => "[" ++ String.intercalate "," (jstringifyL xs) ++ "]"
  | .obj fs => "\x7b" ++ String.intercalate "," (jstringifyF fs) ++ "\x7d"

def jstringifyL : List J → List String
  | [] => []
  | x :: rest => jstringify x :: jstringifyL rest

def jstringifyF : List (String × J) → List String
  | [] => []
  | (k, v) :: rest => (escString k ++ ":" ++ jstringify v) :: jstringifyF rest
end

mutual
/-- Preorder enumeration of every node of a tree together with the
scanner's accumulated dot-joined path: the node itself first, then the
nodes of its entries in `Object.entries` order. -/
def jnodes : J → String → List (String × J)
  | .obj fs, p => (p, .obj fs) :: jnodesF fs p
  | .arr xs, p => (p, .arr xs) :: jnodesA xs 0 p
  | v, p => [(p, v)]

def jnodesF : List (String × J) → String → List (String × J)
  | [], _ => []
  | (k, v) :: rest, p => jnodes v (extendPath p k) ++ jnodesF rest p

def jnodesA : List J → Nat → String → List (String × J)
  | [], _, _ => []
  | x :: rest, i, p => jnodes x (extendPath p (toString i)) ++ jnodesA rest (i + 1) p
end

/-- The synthetic-reference test, stated on a single node as the (amended)
scanner characterization reads: the node's `"Fn::ImportValue"` property is
a truthy (nonempty) scalar string that contains `"ExportsOutputFn"` as a
substring; yields the target string. -/
def recordedMarker (v : J) : Option String :=
  match jlookup v "Fn::ImportValue" with
  | some (.str s) =>
    if s != "" && sIncludes s "ExportsOutputFn" then some s else none
  | _ => none

mutual
/-- The rewrite as the specification describes it: at every mapping entry
under the import-marker key whose value is a truthy string with a truthy
replacement, overwrite that string with the mapped named export name, in
place; keep every other node intact and keep traversing the whole tree. -/
def specMapJ : J → List (String × String) → J
  | .obj fs, repl => .obj (specMapF fs repl)
  | .arr xs, repl => .arr (specMapL xs repl)
  | v, _ => v

def specMapF : List (String × J) → List (String × String) → List (String × J)
  | [], _ => []
  | (k, .str s) :: rest, repl =>
    (k,
     if k == "Fn::ImportValue" && s != "" && rsTruthy repl s then
       .str ((rlookup repl s).getD "")
     else .str s) :: specMapF rest repl
  | (k, v) :: rest, repl => (k, specMapJ v repl) :: specMapF rest repl

def specMapL : List J → List (String × String) → List J
  | [], _ => []
  | x :: rest, repl => specMapJ x repl :: specMapL rest repl
end

mutual
/-- Some node of the tree carries a `"Fn::ImportValue"` field (whatever its
value). -/
def hasImportKey : J → Bool
  | .obj fs => hasImportKeyF fs
  | .arr xs => hasImportKeyL xs
  | _ => false

def hasImportKeyF : List (String × J) → Bool
  | [] => false
  | (k, v) :: rest => k == "Fn::ImportValue" || hasImportKey v || hasImportKeyF rest

def hasImportKeyL : List J → Bool
  | [] => false
  | x :: rest => hasImportKey x || hasImportKeyL rest
end

/-- Pairwise-distinct keys of a key-value list. -/
def keysUnique : List (String × α) → Bool
  | [] => true
  | p :: rest => !(rest.any (fun q => q.1 == p.1)) && keysUnique rest

mutual
/-- Every mapping node of the tree has duplicate-free keys — true of every
tree produced by `JSON.parse`. -/
def jwf : J → Bool
  | .obj fs => keysUnique fs && jwfF fs
  | .arr xs => jwfL xs
  | _ => true

def jwfF : List (String × J) → Bool
  | [] => true
  | (_, v) :: rest => jwf v && jwfF rest

def jwfL : List J → Bool
  | [] => true
  | x :: rest => jwf x && jwfL rest
end

mutual
/-- Every mapping node that carries a replaceable import marker (a truthy
string target with a truthy replacement) is a single-entry mapping — the
shape CloudFormation reference markers actually have. Under this condition
the rewriter's early return after a replacement skips nothing. -/
def okNestJ (repl : List (String × String)) : J → Bool
  | .obj fs =>
    (match markerTarget (.obj fs) with
     | some s => !(rsTruthy repl s) || fs.length == 1
     | none => true) && okNestF repl fs
  | .arr xs => okNestL repl xs
  | _ => true

def okNestF (repl : List (String × String)) : List (String × J) → Bool
  | [] => true
  | (_, v) :: rest => okNestJ repl v && okNestF repl rest

def okNestL (repl : List (String × String)) : List J → Bool
  | [] => true
  | x :: rest => okNestJ repl x && okNestL repl rest
end

/-- The one permitted difference between an original marker value and its
rewritten value: a truthy string replaced by its (truthy) mapped name. -/
def markerEdit (repl : List (String × String)) (v w : J) : Bool :=
  match v, w with
  | .str s, .str r => s != "" && rsTruthy repl s && rlookup repl s == some r
  | _, _ => false

mutual
/-- Frame relation between a tree and its rewritten form: identical
constructors, identical scalars, identical keys in identical order,
sequences of identical length — the only permitted difference is the value
of a `"Fn::ImportValue"` field changed by `markerEdit`. -/
def frameOK (repl : List (String × String)) : J → J → Bool
  | .arr xs, .arr ys => frameOKL repl xs ys
  | .obj fs, .obj gs => frameOKF repl fs gs
  | a, b => jeq a b

def frameOKF (repl : List (String × String)) :
    List (String × J) → List (String × J) → Bool
  | [], [] => true
  | (k, v) :: fs, (l, w) :: gs =>
    k == l
      && (frameOK repl v w || (k == "Fn::ImportValue" && markerEdit repl v w))
      && frameOKF repl fs gs
  | _, _ => false

def frameOKL (repl : List (String × String)) : List J → List J → Bool
  | [], [] => true
  | x :: xs, y :: ys => frameOK repl x y && frameOKL repl xs ys
  | _, _ => false
end

/-- Claim-side: the named-export declarations of one outputs mapping, in
iteration order, one per declaring output entry (before any record
collapsing): every output whose `Export` is truthy and whose declaration
key does not start with the synthetic prefix. -/
def namedDeclsOf (outputs : List (String × J)) : List (String × NamedExportData) :=
  outputs.filterMap (fun e =>
    let exp := jlookup e.2 "Export"
    if truthy exp && !(sStartsWith e.1 "ExportsOutputFn") then
      some (jsKeyOf (optLookup exp "Name"), ⟨e.1, jlookup e.2 "Value"⟩)
    else none)

/-- Claim-side: the stream of named-export declarations of a whole document
set, in document order then output iteration order. -/
def allNamedDeclsOf (docs : List (String × J)) : List (String × NamedExportData) :=
  (docs.map (fun d => namedDeclsOf (jEntries (outputsOf d.2)))).flatten

/-- The write the apply phase of `main` performs for one analysis, if any:
`some (path, rewritten tree)` when a recorded import has a truthy
replacement and the rewriter reports a change, `none` otherwise. -/
def applyWriteOf (repl : List (String × String)) (a : AnalysisResult) :
    Option (String × J) :=
  if (a.imports.filter (fun imp => rsTruthy repl imp.value)).isEmpty then none
  else if (replaceImportsInObject a.content repl).2 then
    some (a.filePath, (replaceImportsInObject a.content repl).1)
  else none

/-- A document as the second run parses it: the rewritten tree when the
apply phase wrote the file, the original document otherwise. -/
def postDoc (repl : List (String × String)) (d : String × J) : String × J :=
  match applyWriteOf repl (analyzeTemplate d.1 d.2) with
  | some w => (d.1, w.2)
  | none => d

/-- Running the pipeline a second time: the first run's writes are
persisted (serialize-then-reparse is the identity on this value domain) and
the pipeline runs again on the resulting document set. -/
def secondRun (docs : List (String × J)) : RunResult :=
  runPipeline (applyWrites docs (runPipeline docs).writes)

/-! ## Concrete example documents -/

/-- A value expression shared by a synthetic and a named export. -/
def exVal : J := .obj [("Fn::GetAtt", .arr [.str "BucketA", .str "Arn"])]

/-- A document declaring the synthetic export
`Stack:ExportsOutputFnGetAtt1` and referencing it three levels deep inside
arrays. -/
def exDocX : J := .obj [
  ("Outputs", .obj [
    ("ExportsOutputFnGetAtt1", .obj [
      ("Value", exVal),
      ("Export", .obj [("Name", .str "Stack:ExportsOutputFnGetAtt1")])])]),
  ("Resources", .obj [
    ("R1", .obj [
      ("Props", .arr [.arr [.obj [
        ("Fn::ImportValue", .str "Stack:ExportsOutputFnGetAtt1")]]])])])]

/-- A document declaring the named export `SharedBucketArn` with the same
value expression. -/
def exDocY : J := .obj [
  ("Outputs", .obj [
    ("BucketArnExport", .obj [
      ("Value", exVal),
      ("Export", .obj [("Name", .str "SharedBucketArn")])])])]

/-- A document with no references and no exports. -/
def exDocClean : J := .obj [
  ("Resources", .obj [("R2", .obj [("Type", .str "AWS::S3::Bucket")])])]

/-- A document whose synthetic export's export name carries the synthetic
marker as a substring and is simultaneously declared as the name of an
equal-valued named export: the resolver maps that name to itself and the
rewriter "replaces" the reference on every run. -/
def exDocSelf : J := .obj [
  ("Outputs", .obj [
    ("ExportsOutputFnX", .obj [
      ("Export", .obj [("Name", .str "FooExportsOutputFn")]),
      ("Value", .num 1)]),
    ("NamedY", .obj [
      ("Export", .obj [("Name", .str "FooExportsOutputFn")]),
      ("Value", .num 1)])]),
  ("Resources", .obj [("R", .obj [("Fn::ImportValue", .str "FooExportsOutputFn")])])]

/-! ## Lemmas -/

theorem structEq_refl (a : J) : structEq a a = true := by
  simp [structEq]

theorem structEqO_refl (o : Option J) : structEqO o o = true := by
  cases o <;> simp [structEqO, structEq_refl]

theorem findMatchingNamedExport_eq_find? (key : String) (v : Option J)
    (l : List (String × NamedExportData)) :
    findMatchingNamedExport key v l
      = (l.find? (fun p => p.2.value == v)).map (·.1) := by
  induction l with
  | nil => rfl
  | cons p rest ih =>
    obtain ⟨n, d⟩ := p
    by_cases h : d.value = v <;>
      simp [findMatchingNamedExport, List.find?_cons, h, ih]

theorem findMatchingNamedExport_some (key : String) (v : Option J)
    (l : List (String × NamedExportData)) (n : String)
    (h : findMatchingNamedExport key v l = some n) :
    ∃ d, (n, d) ∈ l ∧ d.value = v := by
  induction l with
  | nil => simp [findMatchingNamedExport] at h
  | cons p rest ih =>
    obtain ⟨m, d⟩ := p
    by_cases hv : d.value = v
    · simp [findMatchingNamedExport, hv] at h
      exact ⟨d, by simp [h], hv⟩
    · simp [findMatchingNamedExport, hv] at h
      obtain ⟨d', hd', hv'⟩ := ih h
      exact ⟨d', by simp [hd'], hv'⟩

theorem findMatchingNamedExport_none_iff (key : String) (v : Option J)
    (l : List (String × NamedExportData)) :
    findMatchingNamedExport key v l = none ↔ ∀ p ∈ l, p.2.value ≠ v := by
  induction l with
  | nil => simp [findMatchingNamedExport]
  | cons p rest ih =>
    obtain ⟨m, d⟩ := p
    by_cases hv : d.value = v <;> simp [findMatchingNamedExport, hv, ih]

theorem parseAll_error (files : List (String × Option J))
    (h : ∃ f ∈ files, f.2 = none) : parseAll files = .error () := by
  induction files with
  | nil => simp at h
  | cons f rest ih =>
    obtain ⟨p, c⟩ := f
    cases c with
    | none => rfl
    | some j =>
      obtain ⟨g, hg, hgn⟩ := h
      rcases List.mem_cons.mp hg with hg | hg
      · rw [hg] at hgn; simp at hgn
      · rw [show parseAll ((p, some j) :: rest)
              = (parseAll rest).map (fun l => (p, j) :: l) from rfl,
          ih ⟨g, hg, hgn⟩]
        rfl

theorem recordedMarker_arr (xs : List J) : recordedMarker (.arr xs) = none := rfl

theorem scan_head_eq (t : J) (p : String) :
    (match markerTarget t with
     | some s => if sIncludes s "ExportsOutputFn" then [ImportData.mk p s] else []
     | none => []) =
    (match recordedMarker t with
     | some s => [ImportData.mk p s]
     | none => []) := by
  unfold markerTarget recordedMarker
  cases h : jlookup t "Fn::ImportValue" with
  | none => rfl
  | some v =>
    cases v with
    | str s =>
      by_cases he : s = ""
      · subst he; rfl
      · have he2 : (s == "") = false := by simp [he]
        have he3 : (s != "") = true := by simp [he]
        by_cases hi : sIncludes s "ExportsOutputFn" <;> simp [he2, he3, hi]
    | null => rfl
    | bool b => rfl
    | num n => rfl
    | arr xs => rfl
    | obj fs => rfl

theorem findImports_characterization (t : J) : ∀ p,
    findImportsJ t p = (jnodes t p).filterMap
      (fun q => (recordedMarker q.2).map (fun s => ImportData.mk q.1 s)) := by
  induction t using J.inductionOn with
  | hnull => intro p; rfl
  | hbool b => intro p; rfl
  | hnum n => intro p; rfl
  | hstr s => intro p; rfl
  | harr elems ih =>
    intro p
    have hA : ∀ (xs : List J), (∀ x ∈ xs, ∀ q, findImportsJ x q =
          (jnodes x q).filterMap
            (fun m => (recordedMarker m.2).map (fun s => ImportData.mk m.1 s))) →
        ∀ (i : Nat) (q : String), findImportsA xs i q = (jnodesA xs i q).filterMap
          (fun m => (recordedMarker m.2).map (fun s => ImportData.mk m.1 s)) := by
      intro xs hsub
      induction xs with
      | nil => intro i q; rfl
      | cons x rest ihx =>
        intro i q
        rw [show findImportsA (x :: rest) i q
            = findImportsJ x (extendPath q (toString i)) ++ findImportsA rest (i + 1) q from rfl]
        rw [show jnodesA (x :: rest) i q
            = jnodes x (extendPath q (toString i)) ++ jnodesA rest (i + 1) q from rfl]
        rw [List.filterMap_append, hsub x (by simp),
          ihx (fun y hy => hsub y (List.mem_cons_of_mem x hy)) (i + 1) q]
    rw [show findImportsJ (.arr elems) p = findImportsA elems 0 p from rfl]
    rw [show jnodes (.arr elems) p = (p, J.arr elems) :: jnodesA elems 0 p from rfl]
    rw [List.filterMap_cons]
    rw [hA elems ih 0 p]
    rfl
  | hobj fields ih =>
    intro p
    have hF : ∀ (fs : List (String × J)), (∀ f ∈ fs, ∀ q, findImportsJ f.2 q =
          (jnodes f.2 q).filterMap
            (fun m => (recordedMarker m.2).map (fun s => ImportData.mk m.1 s))) →
        ∀ (q : String), findImportsF fs q = (jnodesF fs q).filterMap
          (fun m => (recordedMarker m.2).map (fun s => ImportData.mk m.1 s)) := by
      intro fs hsub
      induction fs with
      | nil => intro q; rfl
      | cons f rest ihf =>
        intro q
        obtain ⟨k, v⟩ := f
        rw [show findImportsF ((k, v) :: rest) q
            = findImportsJ v (extendPath q k) ++ findImportsF rest q from rfl]
        rw [show jnodesF ((k, v) :: rest) q
            = jnodes v (extendPath q k) ++ jnodesF rest q from rfl]
        rw [List.filterMap_append, hsub (k, v) (by simp),
          ihf (fun g hg => hsub g (List.mem_cons_of_mem (k, v) hg)) q]
    rw [show findImportsJ (.obj fields) p =
        (match markerTarget (.obj fields) with
         | some s => if sIncludes s "ExportsOutputFn" then [ImportData.mk p s] else []
         | none => []) ++ findImportsF fields p from rfl]
    rw [show jnodes (.obj fields) p = (p, J.obj fields) :: jnodesF fields p from rfl]
    rw [List.filterMap_cons, scan_head_eq, hF fields ih p]
    cases hrm : recordedMarker (.obj fields) <;> simp [hrm]

/-! ## Claim C4 — scanner characterization -/

/-- C4 counterexample: the scanner records a reference whose mapping is not
single-key and whose target string merely contains — and does not start
with — the synthetic prefix; the claim says such a reference is never
recorded. -/
theorem C4_counterexample :
    findImportsJ
        (.obj [("Fn::ImportValue", .str "AExportsOutputFnB"), ("Other", .num 1)]) ""
      = [⟨"", "AExportsOutputFnB"⟩] ∧
    sStartsWith "AExportsOutputFnB" "ExportsOutputFn" = false ∧
    [("Fn::ImportValue", J.str "AExportsOutputFnB"), ("Other", J.num 1)].length = 2 := by
  refine ⟨by decide, by decide, rfl⟩

/-- C4 amended: `scan` records a reference occurrence exactly at those
nodes whose `"Fn::ImportValue"` property is a truthy (nonempty) scalar
string containing `"ExportsOutputFn"` as a substring — the mapping need not
be single-key, and containment rather than a prefix is required; a
reference whose target string lacks the substring is never recorded. -/
theorem C4_scan_characterization (t : J) (p : String) :
    findImportsJ t p = (jnodes t p).filterMap
      (fun q => (recordedMarker q.2).map (fun s => ImportData.mk q.1 s)) :=
  findImports_characterization t p

/-! ## Claim C7 — tie-break policy -/

/-- C7: the resolver maps a synthetic export to the first named export in
catalog iteration order whose value is equal to the synthetic export's
value (`List.find?` returns exactly the first satisfying entry), and it
yields no replacement name exactly when no named export's value is
equal. -/
theorem C7_tie_break_first_match (key : String) (v : Option J)
    (l : List (String × NamedExportData)) :
    findMatchingNamedExport key v l
        = (l.find? (fun p => p.2.value == v)).map (·.1) ∧
    (findMatchingNamedExport key v l = none ↔ ∀ p ∈ l, p.2.value ≠ v) :=
  ⟨findMatchingNamedExport_eq_find? key v l, findMatchingNamedExport_none_iff key v l⟩

/-! ## Claim C8 — fail-fast on parse error -/

/-- C8: if any discovered file is not valid JSON, the whole run aborts with
the propagated parse error and performs no write: in the source every
`writeFileSync` occurs after the `templateFiles.map(analyzeTemplate)` call
in which the exception escapes, and the error outcome carries no write
list. -/
theorem C8_parse_error_aborts (files : List (String × Option J))
    (h : ∃ f ∈ files, f.2 = none) : mainRun files = .error () := by
  unfold mainRun
  rw [parseAll_error files h]
  rfl

/-- Witness for C8 at a concrete file set with one malformed file. -/
theorem C8_parse_error_aborts_witness :
    mainRun [("a.template.json", some exDocX), ("bad.template.json", none)]
      = .error () :=
  C8_parse_error_aborts _ ⟨("bad.template.json", none), by simp, rfl⟩

/-! ## Claim C2 — completeness of matching under structural equivalence -/

/-- C2 counterexample: a synthetic value and a named export value that
contain the same keys with the same scalars, declared in different orders,
are structurally equivalent — yet the resolver (which compares raw
serializations, which differ) finds no match, so the named export is not
eligible. -/
theorem C2_counterexample :
    structEqO (some (.obj [("b", .num 2), ("a", .num 1)]))
        (some (.obj [("a", .num 1), ("b", .num 2)])) = true ∧
    jstringify (.obj [("b", .num 2), ("a", .num 1)])
        ≠ jstringify (.obj [("a", .num 1), ("b", .num 2)]) ∧
    findMatchingNamedExport "ExportsOutputFnK"
        (some (.obj [("b", .num 2), ("a", .num 1)]))
        [("SharedName", ⟨"NamedKey", some (.obj [("a", .num 1), ("b", .num 2)])⟩)]
      = none := by
  refine ⟨by decide, by decide, by decide⟩

/-- C2 amended: the resolver's value-equivalence is equality of the
serialized value trees — same keys with the same scalars in the same
declaration order. Under that notion completeness holds: whenever some
named export's value is equal to the synthetic export's value, the
resolver finds a match. -/
theorem C2_amended_equal_value_eligible (key : String) (v : Option J)
    (l : List (String × NamedExportData)) (h : ∃ p ∈ l, p.2.value = v) :
    findMatchingNamedExport key v l ≠ none := by
  intro hnone
  obtain ⟨p, hp, hv⟩ := h
  exact (findMatchingNamedExport_none_iff key v l).mp hnone p hp hv

/-- Witness for the amended C2 at a concrete catalog. -/
theorem C2_amended_equal_value_eligible_witness :
    findMatchingNamedExport "ExportsOutputFnK" (some (.num 7))
        [("Other", ⟨"K1", some (.num 5)⟩), ("Shared", ⟨"K2", some (.num 7)⟩)]
      ≠ none :=
  C2_amended_equal_value_eligible _ _ _
    ⟨("Shared", ⟨"K2", some (.num 7)⟩), by simp, rfl⟩

theorem jeq_refl (a : J) : jeq a a = true := (jeq_iff_eq a a).mpr rfl

theorem frameOK_refl (repl : List (String × String)) (t : J) :
    frameOK repl t t = true := by
  induction t using J.inductionOn with
  | hnull => rfl
  | hbool b => simp [frameOK, jeq_refl]
  | hnum n => simp [frameOK, jeq_refl]
  | hstr s => simp [frameOK, jeq_refl]
  | harr elems ih =>
    have hL : ∀ (xs : List J), (∀ x ∈ xs, frameOK repl x x = true) →
        frameOKL repl xs xs = true := by
      intro xs hxs
      induction xs with
      | nil => rfl
      | cons x rest ihl =>
        simp only [frameOKL, Bool.and_eq_true]
        exact ⟨hxs x (by simp), ihl (fun y hy => hxs y (List.mem_cons_of_mem x hy))⟩
    show frameOKL repl elems elems = true
    exact hL elems ih
  | hobj fields ih =>
    have hF : ∀ (fs : List (String × J)), (∀ f ∈ fs, frameOK repl f.2 f.2 = true) →
        frameOKF repl fs fs = true := by
      intro fs hfs
      induction fs with
      | nil => rfl
      | cons f rest ihf =>
        obtain ⟨k, v⟩ := f
        simp only [frameOKF, Bool.and_eq_true, Bool.or_eq_true]
        exact ⟨⟨by simp, Or.inl (hfs (k, v) (by simp))⟩,
          ihf (fun g hg => hfs g (List.mem_cons_of_mem (k, v) hg))⟩
    simp only [frameOK]
    exact hF fields ih

theorem frameOKF_refl (repl : List (String × String)) (fs : List (String × J)) :
    frameOKF repl fs fs = true := by
  induction fs with
  | nil => rfl
  | cons f rest ihf =>
    obtain ⟨k, v⟩ := f
    simp only [frameOKF, Bool.and_eq_true, Bool.or_eq_true]
    exact ⟨⟨by simp, Or.inl (frameOK_refl repl v)⟩, ihf⟩

theorem markerTarget_obj_spec (fields : List (String × J)) (s : String)
    (h : markerTarget (.obj fields) = some s) :
    s ≠ "" ∧ (fields.find? (fun p => p.1 == "Fn::ImportValue")).map (·.2)
      = some (.str s) := by
  unfold markerTarget at h
  rw [show jlookup (.obj fields) "Fn::ImportValue"
      = (fields.find? (fun p => p.1 == "Fn::ImportValue")).map (·.2) from rfl] at h
  cases hfind : fields.find? (fun p => p.1 == "Fn::ImportValue") with
  | none => rw [hfind] at h; exact Option.noConfusion h
  | some q =>
    rw [hfind] at h
    obtain ⟨k0, v0⟩ := q
    cases v0 with
    | str s0 =>
      have h2 : (if (s0 == "") = true then none else some s0) = some s := h
      by_cases he : s0 = ""
      · rw [if_pos (by simp [he])] at h2
        exact Option.noConfusion h2
      · rw [if_neg (by simp [he])] at h2
        have hss : s0 = s := Option.some.inj h2
        subst hss
        exact ⟨he, rfl⟩
    | null => exact Option.noConfusion h
    | bool b => exact Option.noConfusion h
    | num n => exact Option.noConfusion h
    | arr xs => exact Option.noConfusion h
    | obj gs => exact Option.noConfusion h

theorem assignKey_frameOKF (repl : List (String × String)) (s r : String)
    (hr : rlookup repl s = some r) (hrne : r ≠ "") :
    ∀ (fs : List (String × J)),
      (fs.find? (fun p => p.1 == "Fn::ImportValue")).map (·.2) = some (.str s) →
      s ≠ "" →
      frameOKF repl fs (assignKey fs "Fn::ImportValue" (.str r)) = true := by
  intro fs
  induction fs with
  | nil => intro h; simp [List.find?] at h
  | cons f rest ihf =>
    intro hfind hs
    obtain ⟨k, v⟩ := f
    by_cases hk : k = "Fn::ImportValue"
    · subst hk
      rw [List.find?_cons_of_pos _ (by simp)] at hfind
      have hv : v = J.str s := Option.some.inj hfind
      subst hv
      rw [show assignKey (("Fn::ImportValue", J.str s) :: rest) "Fn::ImportValue" (.str r)
          = ("Fn::ImportValue", J.str r) :: rest from by simp [assignKey]]
      simp only [frameOKF, Bool.and_eq_true, Bool.or_eq_true]
      refine ⟨⟨by simp, Or.inr ⟨by simp, ?_⟩⟩, frameOKF_refl repl rest⟩
      simp [markerEdit, hs, rsTruthy, hr, hrne]
    · rw [List.find?_cons_of_neg _ (by simp [hk])] at hfind
      rw [show assignKey ((k, v) :: rest) "Fn::ImportValue" (.str r)
          = (k, v) :: assignKey rest "Fn::ImportValue" (.str r) from by
        simp [assignKey, hk]]
      simp only [frameOKF, Bool.and_eq_true, Bool.or_eq_true]
      exact ⟨⟨by simp, Or.inl (frameOK_refl repl v)⟩, ihf hfind hs⟩

theorem replace_frameOK (t : J) (repl : List (String × String)) :
    frameOK repl t ((replaceImportsInObject t repl).1) = true := by
  induction t using J.inductionOn with
  | hnull => rfl
  | hbool b => simp [replaceImportsInObject, frameOK, jeq_refl]
  | hnum n => simp [replaceImportsInObject, frameOK, jeq_refl]
  | hstr s => simp [replaceImportsInObject, frameOK, jeq_refl]
  | harr elems ih =>
    have hL : ∀ (xs : List J), (∀ x ∈ xs,
          frameOK repl x ((replaceImportsInObject x repl).1) = true) →
        frameOKL repl xs ((replaceImportsA xs repl).1) = true := by
      intro xs hxs
      induction xs with
      | nil => rfl
      | cons x rest ihl =>
        rw [show (replaceImportsA (x :: rest) repl).1
            = (replaceImportsInObject x repl).1 :: (replaceImportsA rest repl).1
            from rfl]
        simp only [frameOKL, Bool.and_eq_true]
        exact ⟨hxs x (by simp), ihl (fun y hy => hxs y (List.mem_cons_of_mem x hy))⟩
    rw [show (replaceImportsInObject (.arr elems) repl).1
        = .arr ((replaceImportsA elems repl).1) from rfl]
    simp only [frameOK]
    exact hL elems ih
  | hobj fields ih =>
    have hF : ∀ (fs : List (String × J)), (∀ f ∈ fs,
          frameOK repl f.2 ((replaceImportsInObject f.2 repl).1) = true) →
        frameOKF repl fs ((replaceImportsF fs repl).1) = true := by
      intro fs hfs
      induction fs with
      | nil => rfl
      | cons f rest ihf =>
        obtain ⟨k, v⟩ := f
        rw [show (replaceImportsF ((k, v) :: rest) repl).1
            = (k, (replaceImportsInObject v repl).1) :: (replaceImportsF rest repl).1
            from rfl]
        simp only [frameOKF, Bool.and_eq_true, Bool.or_eq_true]
        exact ⟨⟨by simp, Or.inl (hfs (k, v) (by simp))⟩,
          ihf (fun g hg => hfs g (List.mem_cons_of_mem (k, v) hg))⟩
    cases hmt : markerTarget (.obj fields) with
    | none =>
      rw [show (replaceImportsInObject (.obj fields) repl).1
          = .obj ((replaceImportsF fields repl).1) from by
        simp [replaceImportsInObject, hmt]]
      simp only [frameOK]
      exact hF fields ih
    | some s =>
      have hs := markerTarget_obj_spec fields s hmt
      cases hr : rlookup repl s with
      | none =>
        rw [show (replaceImportsInObject (.obj fields) repl).1
            = .obj ((replaceImportsF fields repl).1) from by
          simp [replaceImportsInObject, hmt, hr]]
        simp only [frameOK]
        exact hF fields ih
      | some r =>
        by_cases hre : r = ""
        · rw [show (replaceImportsInObject (.obj fields) repl).1
              = .obj ((replaceImportsF fields repl).1) from by
            simp [replaceImportsInObject, hmt, hr, hre]]
          simp only [frameOK]
          exact hF fields ih
        · rw [show (replaceImportsInObject (.obj fields) repl).1
              = .obj (assignKey fields "Fn::ImportValue" (.str r)) from by
            have : (r == "") = false := by simp [hre]
            simp [replaceImportsInObject, hmt, hr, this]]
          simp only [frameOK]
          exact assignKey_frameOKF repl s r hr hre fields hs.2 hs.1

/-! ## Claim C10 — rewriter frame property -/

/-- C10: the rewrite changes at most the strings stored under
`"Fn::ImportValue"` keys, and only when the string has a (truthy) entry in
the replacement map, in which case it becomes the mapped name; every other
key, every scalar, the order and length of every field list and sequence,
and the constructor of every node are unchanged — no nodes are added or
removed (the result is `frameOK`-related to the input). -/
theorem C10_rewriter_frame (t : J) (repl : List (String × String)) :
    frameOK repl t ((replaceImportsInObject t repl).1) = true :=
  replace_frameOK t repl

/-! ## Lemmas about unique-keyed records -/

theorem keysUnique_cons {α : Type} (f : String × α) (rest : List (String × α))
    (h : keysUnique (f :: rest) = true) :
    rest.any (fun q => q.1 == f.1) = false ∧ keysUnique rest = true := by
  have h2 : (!(rest.any (fun q => q.1 == f.1)) && keysUnique rest) = true := h
  simp only [Bool.and_eq_true, Bool.not_eq_true'] at h2
  exact h2

theorem find?_eq_of_mem_unique {α : Type} (fs : List (String × α)) (k : String)
    (v : α) (hu : keysUnique fs = true) (hm : (k, v) ∈ fs) :
    fs.find? (fun p => p.1 == k) = some (k, v) := by
  induction fs with
  | nil => simp at hm
  | cons f rest ih =>
    obtain ⟨hu1, hu2⟩ := keysUnique_cons f rest hu
    rcases List.mem_cons.mp hm with h | h
    · rw [← h]
      exact List.find?_cons_of_pos _ (by simp)
    · by_cases hk : f.1 = k
      · exfalso
        have : rest.any (fun q => q.1 == f.1) = true :=
          List.any_eq_true.mpr ⟨(k, v), h, by simp [hk]⟩
        rw [this] at hu1
        exact Bool.noConfusion hu1
      · rw [List.find?_cons_of_neg _ (by simp [hk])]
        exact ih hu2 h

theorem markerTarget_obj_of_find_str (fields : List (String × J)) (k : String)
    (s : String) (hfind : fields.find? (fun p => p.1 == "Fn::ImportValue")
      = some (k, .str s)) :
    markerTarget (.obj fields) = if s == "" then none else some s := by
  unfold markerTarget
  rw [show jlookup (.obj fields) "Fn::ImportValue"
      = (fields.find? (fun p => p.1 == "Fn::ImportValue")).map (·.2) from rfl, hfind]
  rfl

theorem rewrite_eq_specMap (t : J) (repl : List (String × String)) :
    jwf t = true → okNestJ repl t = true →
    (replaceImportsInObject t repl).1 = specMapJ t repl := by
  induction t using J.inductionOn with
  | hnull => intro _ _; rfl
  | hbool b => intro _ _; rfl
  | hnum n => intro _ _; rfl
  | hstr s => intro _ _; rfl
  | harr elems ih =>
    intro hw hn
    have hL : ∀ (xs : List J), (∀ x ∈ xs, jwf x = true → okNestJ repl x = true →
          (replaceImportsInObject x repl).1 = specMapJ x repl) →
        jwfL xs = true → okNestL repl xs = true →
        (replaceImportsA xs repl).1 = specMapL xs repl := by
      intro xs hsub
      induction xs with
      | nil => intro _ _; rfl
      | cons x rest ihl =>
        intro hw hn
        have hw' : (jwf x && jwfL rest) = true := hw
        have hn' : (okNestJ repl x && okNestL repl rest) = true := hn
        rw [Bool.and_eq_true] at hw' hn'
        show (replaceImportsInObject x repl).1 :: (replaceImportsA rest repl).1
            = specMapJ x repl :: specMapL rest repl
        rw [hsub x (by simp) hw'.1 hn'.1,
          ihl (fun y hy => hsub y (List.mem_cons_of_mem x hy)) hw'.2 hn'.2]
    show J.arr (replaceImportsA elems repl).1 = J.arr (specMapL elems repl)
    rw [hL elems ih hw hn]
  | hobj fields ih =>
    intro hw hn
    have hw' : (keysUnique fields && jwfF fields) = true := hw
    rw [Bool.and_eq_true] at hw'
    have hn' : ((match markerTarget (.obj fields) with
        | some s => !(rsTruthy repl s) || fields.length == 1
        | none => true) && okNestF repl fields) = true := hn
    rw [Bool.and_eq_true] at hn'
    -- the fall-through path: pointwise rewrite equals the specified map,
    -- provided no field is a replaceable marker entry
    have hF : ∀ (fs : List (String × J)),
        (∀ f ∈ fs, jwf f.2 = true → okNestJ repl f.2 = true →
          (replaceImportsInObject f.2 repl).1 = specMapJ f.2 repl) →
        jwfF fs = true → okNestF repl fs = true →
        (∀ v, ("Fn::ImportValue", v) ∈ fs → ∀ s', v = J.str s' →
          (s' != "" && rsTruthy repl s') = false) →
        (replaceImportsF fs repl).1 = specMapF fs repl := by
      intro fs hsub
      induction fs with
      | nil => intro _ _ _; rfl
      | cons f rest ihf =>
        intro hwf hnf hnorepl
        obtain ⟨k, v⟩ := f
        have hwf' : (jwf v && jwfF rest) = true := hwf
        have hnf' : (okNestJ repl v && okNestF repl rest) = true := hnf
        rw [Bool.and_eq_true] at hwf' hnf'
        have htail := ihf (fun g hg => hsub g (List.mem_cons_of_mem (k, v) hg))
          hwf'.2 hnf'.2
          (fun w hw s' hs' => hnorepl w (List.mem_cons_of_mem (k, v) hw) s' hs')
        show (k, (replaceImportsInObject v repl).1) :: (replaceImportsF rest repl).1
            = specMapF ((k, v) :: rest) repl
        cases v with
        | str s' =>
          rw [show specMapF ((k, J.str s') :: rest) repl
              = (k, if k == "Fn::ImportValue" && s' != "" && rsTruthy repl s'
                    then .str ((rlookup repl s').getD "")
                    else .str s') :: specMapF rest repl from rfl]
          by_cases hk : k = "Fn::ImportValue"
          · subst hk
            have hcond := hnorepl (J.str s') (by simp) s' rfl
            rw [show ((("Fn::ImportValue" : String) == "Fn::ImportValue")
                && s' != "" && rsTruthy repl s')
                = (s' != "" && rsTruthy repl s') from by simp, hcond]
            rw [htail]
            rfl
          · rw [show ((k == "Fn::ImportValue") && s' != "" && rsTruthy repl s')
                = false from by simp [hk], htail]
            rfl
        | null => rw [htail]; rfl
        | bool b => rw [htail]; rfl
        | num n => rw [htail]; rfl
        | arr xs =>
          rw [htail, hsub (k, .arr xs) (by simp) hwf'.1 hnf'.1]
          rfl
        | obj gs =>
          rw [htail, hsub (k, .obj gs) (by simp) hwf'.1 hnf'.1]
          rfl
    cases hmt : markerTarget (.obj fields) with
    | none =>
      have hnorepl : ∀ v, ("Fn::ImportValue", v) ∈ fields → ∀ s', v = J.str s' →
          (s' != "" && rsTruthy repl s') = false := by
        intro v hv s' hs'
        subst hs'
        have hfind := find?_eq_of_mem_unique fields "Fn::ImportValue" (J.str s')
          hw'.1 hv
        have := markerTarget_obj_of_find_str fields "Fn::ImportValue" s' hfind
        rw [hmt] at this
        by_cases he : s' = ""
        · simp [he]
        · rw [if_neg (by simp [he])] at this
          exact Option.noConfusion this
      rw [show (replaceImportsInObject (.obj fields) repl).1
          = .obj ((replaceImportsF fields repl).1) from by
        simp [replaceImportsInObject, hmt]]
      rw [show specMapJ (.obj fields) repl = .obj (specMapF fields repl) from rfl]
      rw [hF fields ih hw'.2 hn'.2 hnorepl]
    | some s =>
      cases hr : rsTruthy repl s with
      | false =>
        have hnorepl : ∀ v, ("Fn::ImportValue", v) ∈ fields → ∀ s', v = J.str s' →
            (s' != "" && rsTruthy repl s') = false := by
          intro v hv s' hs'
          subst hs'
          have hfind := find?_eq_of_mem_unique fields "Fn::ImportValue" (J.str s')
            hw'.1 hv
          have heval := markerTarget_obj_of_find_str fields "Fn::ImportValue" s' hfind
          rw [hmt] at heval
          by_cases he : s' = ""
          · simp [he]
          · rw [if_neg (by simp [he])] at heval
            have : s' = s := Option.some.inj heval.symm
            subst this
            simp [hr]
        have hnotruthy : (replaceImportsInObject (.obj fields) repl).1
            = .obj ((replaceImportsF fields repl).1) := by
          unfold rsTruthy at hr
          cases hrl : rlookup repl s with
          | none => simp [replaceImportsInObject, hmt, hrl]
          | some r =>
            rw [hrl] at hr
            have hre : r = "" := by
              by_cases h0 : r = ""
              · exact h0
              · simp [h0] at hr
            subst hre
            simp [replaceImportsInObject, hmt, hrl]
        rw [hnotruthy]
        rw [show specMapJ (.obj fields) repl = .obj (specMapF fields repl) from rfl]
        rw [hF fields ih hw'.2 hn'.2 hnorepl]
      | true =>
        -- replaceable marker: okNest forces a single-entry mapping
        have hone : fields.length == 1 := by
          have h1 := hn'.1
          rw [hmt] at h1
          rcases Bool.or_eq_true_iff.mp h1 with h | h
          · rw [hr] at h; exact Bool.noConfusion h
          · exact h
        obtain ⟨s0ne, hfmap⟩ := markerTarget_obj_spec fields s hmt
        cases hfq : fields.find? (fun p => p.1 == "Fn::ImportValue") with
        | none => rw [hfq] at hfmap; exact Option.noConfusion hfmap
        | some q =>
          rw [hfq] at hfmap
          have hq2 : q.2 = J.str s := Option.some.inj hfmap
          have hqmem := List.mem_of_find?_eq_some hfq
          have hqkey := List.find?_some hfq
          have hfields : fields = [("Fn::ImportValue", J.str s)] := by
            cases fields with
            | nil => simp at hqmem
            | cons f rest =>
              cases rest with
              | nil =>
                rcases List.mem_singleton.mp hqmem with hqf
                obtain ⟨q1, q2⟩ := q
                simp only at hq2 hqkey
                have : q1 = "Fn::ImportValue" := by simpa using hqkey
                rw [← hqf, ← this, hq2]
              | cons g rest2 => simp at hone
          subst hfields
          obtain ⟨r, hrl, hrne⟩ : ∃ r, rlookup repl s = some r ∧ r ≠ "" := by
            unfold rsTruthy at hr
            cases hrl : rlookup repl s with
            | none => rw [hrl] at hr; exact Bool.noConfusion hr
            | some r =>
              rw [hrl] at hr
              exact ⟨r, rfl, by simpa using hr⟩
          rw [show (replaceImportsInObject (.obj [("Fn::ImportValue", J.str s)]) repl).1
              = .obj (assignKey [("Fn::ImportValue", J.str s)] "Fn::ImportValue" (.str r))
              from by
            have : (r == "") = false := by simp [hrne]
            simp [replaceImportsInObject,
              show markerTarget (.obj [("Fn::ImportValue", J.str s)]) = some s from hmt,
              hrl, this]]
          rw [show assignKey [("Fn::ImportValue", J.str s)] "Fn::ImportValue" (.str r)
              = [("Fn::ImportValue", J.str r)] from by simp [assignKey]]
          rw [show specMapJ (.obj [("Fn::ImportValue", J.str s)]) repl
              = .obj [("Fn::ImportValue",
                  if (("Fn::ImportValue" : String) == "Fn::ImportValue")
                      && s != "" && rsTruthy repl s
                  then .str ((rlookup repl s).getD "")
                  else .str s)] from rfl]
          rw [show ((("Fn::ImportValue" : String) == "Fn::ImportValue")
              && s != "" && rsTruthy repl s) = true from by simp [s0ne, hr]]
          simp [hrl]

/-! ## Claim C3 — completeness of rewrite -/

/-- C3 counterexample: a reference marker nested under another key of a
mapping whose own marker is replaced is skipped — the rewriter returns
immediately after a replacement without visiting the node's other entries.
After the rewrite the nested marker's target is still a key of the
replacement map, not the mapped name. -/
theorem C3_counterexample :
    (replaceImportsInObject
        (.obj [("Fn::ImportValue", .str "ExportsOutputFnA"),
               ("Nested", .obj [("Fn::ImportValue", .str "ExportsOutputFnA")])])
        [("ExportsOutputFnA", "SharedName")]).1
      = .obj [("Fn::ImportValue", .str "SharedName"),
              ("Nested", .obj [("Fn::ImportValue", .str "ExportsOutputFnA")])] ∧
    rlookup [("ExportsOutputFnA", "SharedName")] "ExportsOutputFnA"
      = some "SharedName" := by
  refine ⟨by decide, by decide⟩

/-- C3 amended: the rewriter overwrites every reference marker whose target
string has a (truthy) entry in the replacement map — traversing the whole
tree and replacing every occurrence — provided the document has unique keys
and every mapping that carries a replaceable marker is a single-entry
mapping (the shape CloudFormation reference markers have); after a
replacement the rewriter does not visit the mapping's other entries, so a
marker nested under a sibling key of a replaced marker is excluded. -/
theorem C3_amended_rewrite_complete (t : J) (repl : List (String × String))
    (hw : jwf t = true) (hn : okNestJ repl t = true) :
    (replaceImportsInObject t repl).1 = specMapJ t repl :=
  rewrite_eq_specMap t repl hw hn

/-- Witness for the amended C3: a document with two independent replaceable
markers, both rewritten. -/
theorem C3_amended_rewrite_complete_witness :
    (replaceImportsInObject
        (.obj [("A", .obj [("Fn::ImportValue", .str "ExportsOutputFnA")]),
               ("B", .arr [.obj [("Fn::ImportValue", .str "ExportsOutputFnA")]])])
        [("ExportsOutputFnA", "SharedName")]).1
      = specMapJ
        (.obj [("A", .obj [("Fn::ImportValue", .str "ExportsOutputFnA")]),
               ("B", .arr [.obj [("Fn::ImportValue", .str "ExportsOutputFnA")]])])
        [("ExportsOutputFnA", "SharedName")] :=
  C3_amended_rewrite_complete _ _ (by decide) (by decide)

/-! ## Write-origin lemmas (apply phase of `main`) -/

theorem applyStep_writes (repl : List (String × String))
    (acc : List (String × J) × Nat) (a : AnalysisResult) :
    ∀ w ∈ (applyStep repl acc a).1, w ∈ acc.1 ∨ (w.1 = a.filePath ∧
      ∃ imp ∈ a.imports, rsTruthy repl imp.value = true) := by
  intro w hw
  simp only [applyStep] at hw
  by_cases hhit : (a.imports.filter (fun imp => rsTruthy repl imp.value)).isEmpty
  · rw [if_pos hhit] at hw
    exact Or.inl hw
  · rw [if_neg hhit] at hw
    have hex : ∃ imp ∈ a.imports, rsTruthy repl imp.value = true := by
      have hne := (Bool.not_eq_true _).mp hhit
      rcases List.exists_mem_of_ne_nil _ (by
          intro hnil
          rw [List.isEmpty_iff.mpr hnil] at hne
          exact Bool.noConfusion hne) with ⟨imp, himp⟩
      have := List.mem_filter.mp himp
      exact ⟨imp, this.1, this.2⟩
    by_cases hch : (replaceImportsInObject a.content repl).2
    · rw [if_pos hch] at hw
      rcases List.mem_append.mp hw with h | h
      · exact Or.inl h
      · rcases List.mem_singleton.mp h with h
        exact Or.inr ⟨by rw [h], hex⟩
    · rw [if_neg hch] at hw
      exact Or.inl hw

theorem applyFold_writes (repl : List (String × String))
    (analyses : List AnalysisResult) :
    ∀ (acc : List (String × J) × Nat),
      ∀ w ∈ (analyses.foldl (applyStep repl) acc).1,
        w ∈ acc.1 ∨ ∃ a ∈ analyses, w.1 = a.filePath ∧
          ∃ imp ∈ a.imports, rsTruthy repl imp.value = true := by
  induction analyses with
  | nil => intro acc w hw; exact Or.inl hw
  | cons a rest ih =>
    intro acc w hw
    rcases ih (applyStep repl acc a) w hw with h | h
    · rcases applyStep_writes repl acc a w h with h2 | h2
      · exact Or.inl h2
      · exact Or.inr ⟨a, by simp, h2.1, h2.2⟩
    · obtain ⟨a', ha', hrest⟩ := h
      exact Or.inr ⟨a', List.mem_cons_of_mem a ha', hrest⟩

theorem analysesOf_paths (docs : List (String × J)) :
    (analysesOf docs).map (·.filePath) = docs.map (·.1) := by
  unfold analysesOf
  rw [List.map_map]
  rfl

/-! ## Claim C6 — no-op preservation -/

/-- C6: a document none of whose recorded synthetic references has an entry
in the replacement map (in particular one with no synthetic references at
all) is never written back — its file's serialized bytes are unchanged by
the run: every write originates from a document one of whose recorded
synthetic references has a truthy replacement. -/
theorem C6_noop_preservation (docs : List (String × J))
    (hpaths : (docs.map (·.1)).Nodup)
    (a : AnalysisResult) (ha : a ∈ analysesOf docs)
    (hclean : ∀ imp ∈ a.imports,
      rlookup (replacementsAndCount (analysesOf docs)).1 imp.value = none) :
    ∀ w ∈ (runPipeline docs).writes, w.1 ≠ a.filePath := by
  intro w hw heq
  simp only [runPipeline] at hw
  by_cases hmc : (replacementsAndCount (analysesOf docs)).2 = 0
  · rw [if_pos hmc] at hw
    simp at hw
  · rw [if_neg hmc] at hw
    have hw2 : w ∈ ((analysesOf docs).foldl
        (applyStep (replacementsAndCount (analysesOf docs)).1) ([], 0)).1 := hw
    rcases applyFold_writes _ _ ([], 0) w hw2 with h | ⟨a', ha', hpath, imp, himp, htruthy⟩
    · simp at h
    · have hnodup : ((analysesOf docs).map (·.filePath)).Nodup := by
        rw [analysesOf_paths docs]; exact hpaths
      have haa : a' = a :=
        List.inj_on_of_nodup_map hnodup ha' ha (by rw [← hpath, heq])
      subst haa
      have hcl := hclean imp himp
      unfold rsTruthy at htruthy
      rw [hcl] at htruthy
      exact Bool.noConfusion htruthy

/-- Witness for C6: a clean document alongside two documents that produce a
match and a rewrite; no write targets the clean document's path. -/
theorem C6_noop_preservation_witness :
    List.Forall (fun w => w.1 ≠ (analyzeTemplate "z" exDocClean).filePath)
      (runPipeline [("x", exDocX), ("y", exDocY), ("z", exDocClean)]).writes :=
  List.forall_iff_forall_mem.mpr
    (C6_noop_preservation [("x", exDocX), ("y", exDocY), ("z", exDocClean)]
      (by decide) (analyzeTemplate "z" exDocClean) (by decide) (by decide))

/-! ## Record lemmas for the catalog and the replacement map -/

theorem mem_recInsert {α : Type} (m : List (String × α)) (k : String) (v : α) :
    ∀ q ∈ recInsert m k v, q ∈ m ∨ q = (k, v) := by
  induction m with
  | nil =>
    intro q hq
    exact Or.inr (List.mem_singleton.mp hq)
  | cons p rest ih =>
    intro q hq
    by_cases hk : (p.1 == k) = true
    · rw [show recInsert (p :: rest) k v = (k, v) :: rest from by
        simp [recInsert, hk]] at hq
      rcases List.mem_cons.mp hq with h | h
      · exact Or.inr h
      · exact Or.inl (List.mem_cons_of_mem p h)
    · rw [show recInsert (p :: rest) k v = p :: recInsert rest k v from by
        simp [recInsert, hk]] at hq
      rcases List.mem_cons.mp hq with h | h
      · exact Or.inl (by simp [h])
      · rcases ih q h with h2 | h2
        · exact Or.inl (List.mem_cons_of_mem p h2)
        · exact Or.inr h2

theorem any_key_recInsert {α : Type} (m : List (String × α)) (k : String)
    (v : α) (x : String) :
    (recInsert m k v).any (fun q => q.1 == x)
      = (m.any (fun q => q.1 == x) || (k == x)) := by
  induction m with
  | nil => simp [recInsert]
  | cons p rest ih =>
    by_cases hk : (p.1 == k) = true
    · rw [show recInsert (p :: rest) k v = (k, v) :: rest from by
        simp [recInsert, hk]]
      have hpk : p.1 = k := by simpa using hk
      simp [hpk, Bool.or_comm, Bool.or_assoc, Bool.or_left_comm]
    · rw [show recInsert (p :: rest) k v = p :: recInsert rest k v from by
        simp [recInsert, hk]]
      simp [ih, Bool.or_assoc]

theorem keysUnique_recInsert {α : Type} (m : List (String × α)) (k : String)
    (v : α) (h : keysUnique m = true) : keysUnique (recInsert m k v) = true := by
  induction m with
  | nil => rfl
  | cons p rest ih =>
    obtain ⟨h1, h2⟩ := keysUnique_cons p rest h
    by_cases hk : (p.1 == k) = true
    · rw [show recInsert (p :: rest) k v = (k, v) :: rest from by
        simp [recInsert, hk]]
      have hpk : p.1 = k := by simpa using hk
      show (!(rest.any (fun q => q.1 == k)) && keysUnique rest) = true
      rw [← hpk, h1, h2]
      rfl
    · rw [show recInsert (p :: rest) k v = p :: recInsert rest k v from by
        simp [recInsert, hk]]
      show (!((recInsert rest k v).any (fun q => q.1 == p.1))
          && keysUnique (recInsert rest k v)) = true
      rw [any_key_recInsert, h1, ih h2]
      have : (k == p.1) = false := by
        by_cases hkp : k = p.1
        · exfalso; exact hk (by simp [hkp])
        · simp [hkp]
      rw [this]
      rfl

theorem keysUnique_objAssign {α : Type} (src dst : List (String × α))
    (h : keysUnique dst = true) : keysUnique (objAssign dst src) = true := by
  induction src generalizing dst with
  | nil => exact h
  | cons p rest ih =>
    rw [show objAssign dst (p :: rest) = objAssign (recInsert dst p.1 p.2) rest
        from rfl]
    exact ih (recInsert dst p.1 p.2) (keysUnique_recInsert dst p.1 p.2 h)

theorem keysUnique_namedFold (analyses : List AnalysisResult) :
    ∀ (acc : List (String × NamedExportData)), keysUnique acc = true →
      keysUnique (analyses.foldl (fun a b => objAssign a b.namedExports) acc)
        = true := by
  induction analyses with
  | nil => intro acc h; exact h
  | cons a rest ih =>
    intro acc h
    exact ih (objAssign acc a.namedExports)
      (keysUnique_objAssign a.namedExports acc h)

theorem keysUnique_allNamedExportsOf (analyses : List AnalysisResult) :
    keysUnique (allNamedExportsOf analyses) = true :=
  keysUnique_namedFold analyses [] rfl

theorem rlookup_eq_of_mem_unique {α : Type} (m : List (String × α))
    (k : String) (v : α) (hu : keysUnique m = true) (hm : (k, v) ∈ m) :
    rlookup m k = some v := by
  unfold rlookup
  rw [find?_eq_of_mem_unique m k v hu hm]
  rfl

/-! ## Invariants of the match phase -/

theorem resolveStep_mem (allNamed : List (String × NamedExportData))
    (acc : List (String × String) × Nat) (e : String × ExportsOutputFnData) :
    ∀ q ∈ (resolveStep allNamed acc e).1, q ∈ acc.1 ∨
      (jsKeyOf e.2.exportName = q.1 ∧
        findMatchingNamedExport e.1 e.2.value allNamed = some q.2 ∧ q.2 ≠ "") := by
  intro q hq
  unfold resolveStep at hq
  cases hm : findMatchingNamedExport e.1 e.2.value allNamed with
  | none => rw [hm] at hq; exact Or.inl hq
  | some m =>
    rw [hm] at hq
    have hq2 : q ∈ (if (m == "") = true then acc
        else (recInsert acc.1 (jsKeyOf e.2.exportName) m, acc.2 + 1)).1 := hq
    by_cases hme : (m == "") = true
    · rw [if_pos hme] at hq2
      exact Or.inl hq2
    · rw [if_neg hme] at hq2
      rcases mem_recInsert acc.1 (jsKeyOf e.2.exportName) m q hq2 with h | h
      · exact Or.inl h
      · subst h
        exact Or.inr ⟨rfl, rfl, by simpa using hme⟩

theorem resolveFoldInner_mem (allNamed : List (String × NamedExportData))
    (es : List (String × ExportsOutputFnData)) :
    ∀ (acc : List (String × String) × Nat),
      ∀ q ∈ (es.foldl (resolveStep allNamed) acc).1, q ∈ acc.1 ∨
        ∃ e ∈ es, jsKeyOf e.2.exportName = q.1 ∧
          findMatchingNamedExport e.1 e.2.value allNamed = some q.2 ∧ q.2 ≠ "" := by
  induction es with
  | nil => intro acc q hq; exact Or.inl hq
  | cons e rest ih =>
    intro acc q hq
    rcases ih (resolveStep allNamed acc e) q hq with h | h
    · rcases resolveStep_mem allNamed acc e q h with h2 | h2
      · exact Or.inl h2
      · exact Or.inr ⟨e, by simp, h2⟩
    · obtain ⟨e', he', hrest⟩ := h
      exact Or.inr ⟨e', List.mem_cons_of_mem e he', hrest⟩

theorem resolveFold_mem (allNamed : List (String × NamedExportData))
    (analyses : List AnalysisResult) :
    ∀ (acc : List (String × String) × Nat),
      ∀ q ∈ (analyses.foldl
          (fun ac a => a.exportsOutputFn.foldl (resolveStep allNamed) ac) acc).1,
        q ∈ acc.1 ∨ ∃ a ∈ analyses, ∃ e ∈ a.exportsOutputFn,
          jsKeyOf e.2.exportName = q.1 ∧
          findMatchingNamedExport e.1 e.2.value allNamed = some q.2 ∧ q.2 ≠ "" := by
  induction analyses with
  | nil => intro acc q hq; exact Or.inl hq
  | cons a rest ih =>
    intro acc q hq
    rcases ih _ q hq with h | h
    · rcases resolveFoldInner_mem allNamed a.exportsOutputFn acc q h with h2 | h2
      · exact Or.inl h2
      · obtain ⟨e, he, hrest⟩ := h2
        exact Or.inr ⟨a, by simp, e, he, hrest⟩
    · obtain ⟨a', ha', hrest⟩ := h
      exact Or.inr ⟨a', List.mem_cons_of_mem a ha', hrest⟩

/-! ## Claim C1 — soundness of matching -/

/-- C1: every entry of the produced replacement map pairs a synthetic
export with a named export whose value node is structurally equal to the
synthetic export's value node (same keys/elements with the same scalars,
independent of declaration order — here they are in fact identical). -/
theorem C1_matching_sound (docs : List (String × J)) (q : String × String)
    (hq : q ∈ (replacementsAndCount (analysesOf docs)).1) :
    ∃ a ∈ analysesOf docs, ∃ e ∈ a.exportsOutputFn,
      jsKeyOf e.2.exportName = q.1 ∧
      ∃ d, rlookup (allNamedExportsOf (analysesOf docs)) q.2 = some d ∧
        structEqO e.2.value d.value = true := by
  have hq2 : q ∈ ((analysesOf docs).foldl
      (fun ac a => a.exportsOutputFn.foldl
        (resolveStep (allNamedExportsOf (analysesOf docs))) ac) ([], 0)).1 := hq
  rcases resolveFold_mem _ _ ([], 0) q hq2 with h | h
  · simp at h
  · obtain ⟨a, ha, e, he, hkey, hfind, hne⟩ := h
    obtain ⟨d, hd, hdv⟩ := findMatchingNamedExport_some _ _ _ _ hfind
    refine ⟨a, ha, e, he, hkey, d, ?_, ?_⟩
    · exact rlookup_eq_of_mem_unique _ _ _
        (keysUnique_allNamedExportsOf (analysesOf docs)) hd
    · rw [hdv]
      exact structEqO_refl e.2.value

/-- Witness for C1: the two-document example produces the replacement
`Stack:ExportsOutputFnGetAtt1 → SharedBucketArn`, whose two value nodes are
structurally equal. -/
theorem C1_matching_sound_witness :
    ∃ a ∈ analysesOf [("x", exDocX), ("y", exDocY)], ∃ e ∈ a.exportsOutputFn,
      jsKeyOf e.2.exportName = "Stack:ExportsOutputFnGetAtt1" ∧
      ∃ d, rlookup (allNamedExportsOf (analysesOf [("x", exDocX), ("y", exDocY)]))
          "SharedBucketArn" = some d ∧
        structEqO e.2.value d.value = true :=
  C1_matching_sound [("x", exDocX), ("y", exDocY)]
    ("Stack:ExportsOutputFnGetAtt1", "SharedBucketArn") (by decide)

/-! ## Catalog lookup lemmas for C9 -/

theorem rlookup_recInsert {α : Type} (m : List (String × α)) (k : String)
    (v : α) (x : String) :
    rlookup (recInsert m k v) x = if k = x then some v else rlookup m x := by
  induction m with
  | nil =>
    by_cases hk : k = x
    · simp [recInsert, rlookup, hk]
    · simp [recInsert, rlookup, hk, show (k == x) = false from by simp [hk]]
  | cons p rest ih =>
    by_cases hpk : (p.1 == k) = true
    · have hp : p.1 = k := by simpa using hpk
      rw [show recInsert (p :: rest) k v = (k, v) :: rest from by
        simp [recInsert, hpk]]
      by_cases hkx : k = x
      · simp [rlookup, List.find?_cons_of_pos, hkx]
      · have h1 : ((k, v).1 == x) = false := by simp [hkx]
        have h2 : (p.1 == x) = false := by simp [hp, hkx]
        simp [rlookup, List.find?_cons_of_neg, h1, h2, hkx]
    · rw [show recInsert (p :: rest) k v = p :: recInsert rest k v from by
        simp [recInsert, hpk]]
      by_cases hpx : (p.1 == x) = true
      · have hkx : ¬ (k = x) := by
          intro h
          subst h
          exact hpk hpx
        simp [rlookup, List.find?_cons_of_pos, hpx, hkx]
      · rw [show rlookup (p :: recInsert rest k v) x
            = rlookup (recInsert rest k v) x from by
          simp [rlookup, List.find?_cons_of_neg, hpx]]
        rw [show rlookup (p :: rest) x = rlookup rest x from by
          simp [rlookup, List.find?_cons_of_neg, hpx]]
        exact ih

theorem rlookup_foldl_recInsert {α : Type} (ds : List (String × α)) :
    ∀ (acc : List (String × α)) (x : String),
      rlookup (ds.foldl (fun m p => recInsert m p.1 p.2) acc) x
        = match ds.reverse.find? (fun p => p.1 == x) with
          | some p => some p.2
          | none => rlookup acc x := by
  induction ds with
  | nil => intro acc x; rfl
  | cons d rest ih =>
    intro acc x
    rw [show (d :: rest).foldl (fun m p => recInsert m p.1 p.2) acc
        = rest.foldl (fun m p => recInsert m p.1 p.2) (recInsert acc d.1 d.2)
        from rfl]
    rw [ih (recInsert acc d.1 d.2) x]
    rw [show (d :: rest).reverse = rest.reverse ++ [d] from by simp]
    rw [List.find?_append]
    cases hf : rest.reverse.find? (fun p => p.1 == x) with
    | some p => rfl
    | none =>
      rw [rlookup_recInsert acc d.1 d.2 x]
      by_cases hdx : d.1 = x
      · rw [if_pos hdx]
        rw [show List.find? (fun p => p.1 == x) [d] = some d from
          List.find?_cons_of_pos _ (by simp [hdx])]
        rfl
      · rw [if_neg hdx]
        rw [show List.find? (fun p => p.1 == x) [d] = none from by
          rw [List.find?_cons_of_neg _ (by simp [hdx])]; rfl]
        rfl

theorem find?_reverse_of_unique {α : Type} (m : List (String × α))
    (hu : keysUnique m = true) (x : String) :
    (m.reverse.find? (fun p => p.1 == x)).map (·.2) = rlookup m x := by
  induction m with
  | nil => rfl
  | cons p rest ih =>
    obtain ⟨h1, h2⟩ := keysUnique_cons p rest hu
    rw [show (p :: rest).reverse = rest.reverse ++ [p] from by simp]
    rw [List.find?_append]
    by_cases hpx : p.1 = x
    · have hnone : rest.reverse.find? (fun q => q.1 == x) = none := by
        rw [List.find?_eq_none]
        intro q hq
        have h3 := List.any_eq_false.mp h1 q (List.mem_reverse.mp hq)
        rw [← hpx]
        exact h3
      rw [hnone]
      rw [show (Option.none.or (List.find? (fun q => q.1 == x) [p]))
          = List.find? (fun q => q.1 == x) [p] from by simp]
      rw [List.find?_cons_of_pos _ (by simp [hpx])]
      rw [show rlookup (p :: rest) x = some p.2 from by
        simp [rlookup, List.find?_cons_of_pos, hpx]]
      rfl
    · rw [show List.find? (fun q => q.1 == x) [p] = none from by
        rw [List.find?_cons_of_neg _ (by simp [hpx])]; rfl]
      rw [show rlookup (p :: rest) x = rlookup rest x from by
        simp [rlookup, List.find?_cons_of_neg, show (p.1 == x) = false from by
          simp [hpx]]]
      rw [show ((rest.reverse.find? (fun q => q.1 == x)).or Option.none)
          = rest.reverse.find? (fun q => q.1 == x) from by simp]
      exact ih h2

theorem keysUnique_foldl_recInsert {α : Type} (ds : List (String × α)) :
    ∀ (acc : List (String × α)), keysUnique acc = true →
      keysUnique (ds.foldl (fun m p => recInsert m p.1 p.2) acc) = true := by
  induction ds with
  | nil => intro acc h; exact h
  | cons d rest ih =>
    intro acc h
    exact ih (recInsert acc d.1 d.2) (keysUnique_recInsert acc d.1 d.2 h)

theorem analyzeOutputsStep_snd
    (acc : List (String × ExportsOutputFnData) × List (String × NamedExportData))
    (e : String × J) :
    (analyzeOutputsStep acc e).2
      = if truthy (jlookup e.2 "Export") && !(sStartsWith e.1 "ExportsOutputFn")
        then recInsert acc.2 (jsKeyOf (optLookup (jlookup e.2 "Export") "Name"))
          ⟨e.1, jlookup e.2 "Value"⟩
        else acc.2 := by
  unfold analyzeOutputsStep
  by_cases h1 : (sStartsWith e.1 "ExportsOutputFn" && truthy (jlookup e.2 "Export")) = true
  · have hs : sStartsWith e.1 "ExportsOutputFn" = true := by
      rw [Bool.and_eq_true] at h1
      exact h1.1
    rw [if_pos h1, if_neg (by simp [hs])]
  · rw [if_neg h1]
    by_cases h2 : (truthy (jlookup e.2 "Export")
        && !(sStartsWith e.1 "ExportsOutputFn")) = true
    · rw [if_pos h2, if_pos h2]
    · rw [if_neg h2, if_neg h2]

theorem namedDeclsOf_cons (e : String × J) (rest : List (String × J)) :
    namedDeclsOf (e :: rest)
      = (if truthy (jlookup e.2 "Export") && !(sStartsWith e.1 "ExportsOutputFn")
         then [(jsKeyOf (optLookup (jlookup e.2 "Export") "Name"),
               (⟨e.1, jlookup e.2 "Value"⟩ : NamedExportData))]
         else []) ++ namedDeclsOf rest := by
  unfold namedDeclsOf
  rw [List.filterMap_cons]
  by_cases h : (truthy (jlookup e.2 "Export")
      && !(sStartsWith e.1 "ExportsOutputFn")) = true
  · rw [if_pos h, if_pos h]
    rfl
  · rw [if_neg h, if_neg h]
    rfl

theorem analyzeOutputs_snd (outputs : List (String × J)) :
    ∀ (acc : List (String × ExportsOutputFnData) × List (String × NamedExportData)),
      (outputs.foldl analyzeOutputsStep acc).2
        = (namedDeclsOf outputs).foldl (fun m p => recInsert m p.1 p.2) acc.2 := by
  induction outputs with
  | nil => intro acc; rfl
  | cons e rest ih =>
    intro acc
    rw [show (e :: rest).foldl analyzeOutputsStep acc
        = rest.foldl analyzeOutputsStep (analyzeOutputsStep acc e) from rfl]
    rw [ih (analyzeOutputsStep acc e)]
    rw [namedDeclsOf_cons]
    by_cases h : (truthy (jlookup e.2 "Export")
        && !(sStartsWith e.1 "ExportsOutputFn")) = true
    · rw [if_pos h]
      rw [show (analyzeOutputsStep acc e).2
          = recInsert acc.2 (jsKeyOf (optLookup (jlookup e.2 "Export") "Name"))
            ⟨e.1, jlookup e.2 "Value"⟩ from by
        rw [analyzeOutputsStep_snd, if_pos h]]
      rfl
    · rw [if_neg h]
      rw [show (analyzeOutputsStep acc e).2 = acc.2 from by
        rw [analyzeOutputsStep_snd, if_neg h]]
      rfl

theorem namedExports_eq_declFold (p : String) (c : J) :
    (analyzeTemplate p c).namedExports
      = (namedDeclsOf (jEntries (outputsOf c))).foldl
          (fun m q => recInsert m q.1 q.2) [] :=
  analyzeOutputs_snd (jEntries (outputsOf c)) ([], [])

theorem keysUnique_namedExports (p : String) (c : J) :
    keysUnique (analyzeTemplate p c).namedExports = true := by
  rw [namedExports_eq_declFold]
  exact keysUnique_foldl_recInsert _ [] rfl

theorem rlookup_namedExports (p : String) (c : J) (x : String) :
    rlookup (analyzeTemplate p c).namedExports x
      = ((namedDeclsOf (jEntries (outputsOf c))).reverse.find?
          (fun q => q.1 == x)).map (·.2) := by
  rw [namedExports_eq_declFold, rlookup_foldl_recInsert]
  cases (namedDeclsOf (jEntries (outputsOf c))).reverse.find? (fun q => q.1 == x)
    <;> rfl

theorem rlookup_objAssign_named (p : String) (c : J)
    (acc : List (String × NamedExportData)) (x : String) :
    rlookup (objAssign acc (analyzeTemplate p c).namedExports) x
      = match (namedDeclsOf (jEntries (outputsOf c))).reverse.find?
          (fun q => q.1 == x) with
        | some q => some q.2
        | none => rlookup acc x := by
  unfold objAssign
  rw [rlookup_foldl_recInsert]
  have e2 := find?_reverse_of_unique (analyzeTemplate p c).namedExports
    (keysUnique_namedExports p c) x
  rw [rlookup_namedExports] at e2
  cases hf : (analyzeTemplate p c).namedExports.reverse.find?
      (fun q => q.1 == x) with
  | some q =>
    rw [hf] at e2
    cases hg : (namedDeclsOf (jEntries (outputsOf c))).reverse.find?
        (fun q => q.1 == x) with
    | some r =>
      rw [hg] at e2
      show some q.2 = some r.2
      exact e2
    | none =>
      rw [hg] at e2
      exact Option.noConfusion (show (some q.2 : Option NamedExportData) = none from e2)
  | none =>
    rw [hf] at e2
    cases hg : (namedDeclsOf (jEntries (outputsOf c))).reverse.find?
        (fun q => q.1 == x) with
    | some r =>
      rw [hg] at e2
      exact Option.noConfusion (show (none : Option NamedExportData) = some r.2 from e2)
    | none => rfl

theorem rlookup_allNamed_fold (docs : List (String × J)) :
    ∀ (acc : List (String × NamedExportData)) (x : String),
      rlookup ((analysesOf docs).foldl
          (fun a b => objAssign a b.namedExports) acc) x
        = match (allNamedDeclsOf docs).reverse.find? (fun q => q.1 == x) with
          | some q => some q.2
          | none => rlookup acc x := by
  induction docs with
  | nil => intro acc x; rfl
  | cons d rest ih =>
    intro acc x
    rw [show (analysesOf (d :: rest)).foldl
          (fun a b => objAssign a b.namedExports) acc
        = (analysesOf rest).foldl (fun a b => objAssign a b.namedExports)
            (objAssign acc (analyzeTemplate d.1 d.2).namedExports) from rfl]
    rw [ih _ x]
    rw [show allNamedDeclsOf (d :: rest)
        = namedDeclsOf (jEntries (outputsOf d.2)) ++ allNamedDeclsOf rest from by
      unfold allNamedDeclsOf
      simp]
    rw [List.reverse_append, List.find?_append]
    cases hrest : (allNamedDeclsOf rest).reverse.find? (fun q => q.1 == x) with
    | some q => rfl
    | none =>
      rw [rlookup_objAssign_named d.1 d.2 acc x]
      cases hd : (namedDeclsOf (jEntries (outputsOf d.2))).reverse.find?
          (fun q => q.1 == x) <;> rfl

/-! ## Claim C9 — catalog last-writer-wins invariant -/

/-- C9: in the merged catalog every named export name maps to exactly one
value (its key list is duplicate-free), and the value retained for a name
is the one from the last declaration of that name in iteration order —
documents in discovery order, outputs in declaration order — silently
overwriting earlier ones (lookup equals search through the reversed
declaration stream). -/
theorem C9_catalog_last_writer (docs : List (String × J)) (x : String) :
    keysUnique (allNamedExportsOf (analysesOf docs)) = true ∧
    rlookup (allNamedExportsOf (analysesOf docs)) x
      = ((allNamedDeclsOf docs).reverse.find? (fun q => q.1 == x)).map (·.2) := by
  refine ⟨keysUnique_allNamedExportsOf _, ?_⟩
  rw [show allNamedExportsOf (analysesOf docs)
      = (analysesOf docs).foldl (fun a b => objAssign a b.namedExports) []
      from rfl]
  rw [rlookup_allNamed_fold docs [] x]
  cases (allNamedDeclsOf docs).reverse.find? (fun q => q.1 == x) <;> rfl

/-! ## Preservation lemmas for the specified rewrite (towards C5) -/

theorem jlookup_specMapJ_nonmarker (c : J) (r : List (String × String))
    (k : String) (hk : k ≠ "Fn::ImportValue") :
    jlookup (specMapJ c r) k = (jlookup c k).map (fun v => specMapJ v r) := by
  cases c with
  | null => rfl
  | bool b => rfl
  | num n => rfl
  | str s => rfl
  | arr xs => rfl
  | obj fs =>
    show jlookup (.obj (specMapF fs r)) k
        = (jlookup (.obj fs) k).map (fun v => specMapJ v r)
    induction fs with
    | nil => rfl
    | cons f rest ih =>
      obtain ⟨k0, v0⟩ := f
      by_cases hk0 : (k0 == k) = true
      · have hk0' : k0 = k := by simpa using hk0
        have hcons : specMapF ((k0, v0) :: rest) r
            = (k0, specMapJ v0 r) :: specMapF rest r := by
          cases v0 with
          | str s =>
            rw [show specMapF ((k0, J.str s) :: rest) r
                = (k0, if k0 == "Fn::ImportValue" && s != "" && rsTruthy r s
                      then .str ((rlookup r s).getD "") else .str s)
                  :: specMapF rest r from rfl]
            rw [show ((k0 == "Fn::ImportValue") && s != "" && rsTruthy r s)
                = false from by
              rw [show (k0 == "Fn::ImportValue") = false from by
                simp [hk0', hk]]
              rfl]
            rw [if_neg (by simp)]
            rfl
          | null => rfl
          | bool b => rfl
          | num n => rfl
          | arr xs => rfl
          | obj gs => rfl
        rw [hcons]
        rw [show jlookup (.obj ((k0, specMapJ v0 r) :: specMapF rest r)) k
            = some (specMapJ v0 r) from by
          simp [jlookup, List.find?_cons_of_pos, hk0]]
        rw [show jlookup (.obj ((k0, v0) :: rest)) k = some v0 from by
          simp [jlookup, List.find?_cons_of_pos, hk0]]
        rfl
      · have step : jlookup (.obj (specMapF ((k0, v0) :: rest) r)) k
            = jlookup (.obj (specMapF rest r)) k := by
          cases v0 <;>
            simp [jlookup, specMapF, List.find?_cons_of_neg, hk0]
        rw [step]
        rw [show jlookup (.obj ((k0, v0) :: rest)) k
            = jlookup (.obj rest) k from by
          simp [jlookup, List.find?_cons_of_neg, hk0]]
        exact ih

theorem truthy_specMapJ (v : J) (r : List (String × String)) :
    truthy (some (specMapJ v r)) = truthy (some v) := by
  cases v <;> rfl

theorem outputsOf_specMapJ (c : J) (r : List (String × String)) :
    outputsOf (specMapJ c r) = specMapJ (outputsOf c) r := by
  unfold outputsOf
  rw [jlookup_specMapJ_nonmarker c r "Outputs" (by simp)]
  cases h : jlookup c "Outputs" with
  | none => rfl
  | some v =>
    rw [show Option.map (fun v => specMapJ v r) (some v)
        = some (specMapJ v r) from rfl]
    rw [truthy_specMapJ]
    by_cases ht : truthy (some v) = true
    · rw [if_pos ht, if_pos ht]
      rfl
    · rw [if_neg ht, if_neg ht]
      rfl

theorem specMapJ_id_of_no_key (r : List (String × String)) (t : J) :
    hasImportKey t = false → specMapJ t r = t := by
  induction t using J.inductionOn with
  | hnull => intro _; rfl
  | hbool b => intro _; rfl
  | hnum n => intro _; rfl
  | hstr s => intro _; rfl
  | harr elems ih =>
    intro h
    have hL : ∀ (xs : List J), (∀ x ∈ xs, hasImportKey x = false →
          specMapJ x r = x) →
        hasImportKeyL xs = false → specMapL xs r = xs := by
      intro xs hsub
      induction xs with
      | nil => intro _; rfl
      | cons x rest ihl =>
        intro hx
        have hx' : hasImportKey x = false ∧ hasImportKeyL rest = false := by
          have : (hasImportKey x || hasImportKeyL rest) = false := hx
          simpa [Bool.or_eq_false_iff] using this
        show specMapJ x r :: specMapL rest r = x :: rest
        rw [hsub x (by simp) hx'.1,
          ihl (fun y hy => hsub y (List.mem_cons_of_mem x hy)) hx'.2]
    show J.arr (specMapL elems r) = J.arr elems
    rw [hL elems ih h]
  | hobj fields ih =>
    intro h
    have hF : ∀ (fs : List (String × J)), (∀ f ∈ fs, hasImportKey f.2 = false →
          specMapJ f.2 r = f.2) →
        hasImportKeyF fs = false → specMapF fs r = fs := by
      intro fs hsub
      induction fs with
      | nil => intro _; rfl
      | cons f rest ihf =>
        intro hx
        obtain ⟨k, v⟩ := f
        have hx' : (k == "Fn::ImportValue") = false ∧ hasImportKey v = false
            ∧ hasImportKeyF rest = false := by
          have h0 : ((k == "Fn::ImportValue") || hasImportKey v
              || hasImportKeyF rest) = false := hx
          rcases Bool.or_eq_false_iff.mp h0 with ⟨h1, h3⟩
          rcases Bool.or_eq_false_iff.mp h1 with ⟨h1a, h2⟩
          exact ⟨h1a, h2, h3⟩
        have htail := ihf (fun g hg => hsub g (List.mem_cons_of_mem (k, v) hg))
          hx'.2.2
        cases v with
        | str s =>
          rw [show specMapF ((k, J.str s) :: rest) r
              = (k, if k == "Fn::ImportValue" && s != "" && rsTruthy r s
                    then .str ((rlookup r s).getD "") else .str s)
                :: specMapF rest r from rfl]
          rw [show ((k == "Fn::ImportValue") && s != "" && rsTruthy r s)
              = false from by rw [hx'.1]; rfl]
          rw [if_neg (by simp), htail]
        | null => show (k, specMapJ J.null r) :: specMapF rest r = _; rw [htail]; rfl
        | bool b =>
          show (k, specMapJ (J.bool b) r) :: specMapF rest r = _
          rw [htail]; rfl
        | num n =>
          show (k, specMapJ (J.num n) r) :: specMapF rest r = _
          rw [htail]; rfl
        | arr xs =>
          show (k, specMapJ (J.arr xs) r) :: specMapF rest r = _
          rw [htail, hsub (k, J.arr xs) (by simp) hx'.2.1]
        | obj gs =>
          show (k, specMapJ (J.obj gs) r) :: specMapF rest r = _
          rw [htail, hsub (k, J.obj gs) (by simp) hx'.2.1]
    show J.obj (specMapF fields r) = J.obj fields
    rw [hF fields ih h]

theorem markerTarget_cons_pos (k : String) (v : J) (rest : List (String × J))
    (hk : (k == "Fn::ImportValue") = true) :
    markerTarget (.obj ((k, v) :: rest))
      = match v with
        | .str s => if s == "" then none else some s
        | _ => none := by
  unfold markerTarget
  rw [show jlookup (.obj ((k, v) :: rest)) "Fn::ImportValue" = some v from by
    simp [jlookup, List.find?_cons_of_pos, hk]]
  cases v <;> rfl

theorem markerTarget_cons_neg (k : String) (v : J) (rest : List (String × J))
    (hk : (k == "Fn::ImportValue") = false) :
    markerTarget (.obj ((k, v) :: rest)) = markerTarget (.obj rest) := by
  unfold markerTarget
  rw [show jlookup (.obj ((k, v) :: rest)) "Fn::ImportValue"
      = jlookup (.obj rest) "Fn::ImportValue" from by
    simp [jlookup, List.find?_cons_of_neg, hk]]

theorem markerTarget_cons_str (k s : String) (rest : List (String × J))
    (hk : (k == "Fn::ImportValue") = true) :
    markerTarget (.obj ((k, .str s) :: rest))
      = if s == "" then none else some s := by
  rw [markerTarget_cons_pos k _ rest hk]

theorem markerTarget_specMapF (r : List (String × String)) :
    ∀ (fs : List (String × J)),
      markerTarget (.obj (specMapF fs r))
        = (markerTarget (.obj fs)).map
            (fun s => if rsTruthy r s then (rlookup r s).getD "" else s) := by
  intro fs
  induction fs with
  | nil => rfl
  | cons f rest ih =>
    obtain ⟨k, v⟩ := f
    by_cases hk : (k == "Fn::ImportValue") = true
    · cases v with
      | str s =>
        rw [show specMapF ((k, J.str s) :: rest) r
            = (k, if k == "Fn::ImportValue" && s != "" && rsTruthy r s
                  then .str ((rlookup r s).getD "") else .str s)
              :: specMapF rest r from rfl]
        rw [show ((k == "Fn::ImportValue") && s != "" && rsTruthy r s)
            = (s != "" && rsTruthy r s) from by rw [hk]; rfl]
        rw [markerTarget_cons_str k s rest hk]
        by_cases hse : s = ""
        · subst hse
          rw [show (("" : String) != "" && rsTruthy r "") = false from by simp]
          rw [if_neg (by simp)]
          rw [markerTarget_cons_str k "" _ hk]
          rfl
        · have hsne : (s != "") = true := by simp [hse]
          rw [show ((s != "") && rsTruthy r s) = rsTruthy r s from by
            rw [hsne]; rfl]
          rw [show (if (s == "") = true then none else (some s : Option String))
              = some s from by rw [if_neg (by simp [hse])]]
          rw [Option.map_some']
          cases hr : rsTruthy r s with
          | true =>
            rw [if_pos rfl, if_pos rfl]
            obtain ⟨v0, hv0, hv0ne⟩ : ∃ v0, rlookup r s = some v0 ∧ v0 ≠ "" := by
              unfold rsTruthy at hr
              cases hrl : rlookup r s with
              | none => rw [hrl] at hr; exact Bool.noConfusion hr
              | some v0 =>
                rw [hrl] at hr
                exact ⟨v0, rfl, by simpa using hr⟩
            rw [show (rlookup r s).getD "" = v0 from by rw [hv0]; rfl]
            rw [markerTarget_cons_str k v0 _ hk]
            rw [if_neg (by simp [hv0ne])]
          | false =>
            rw [if_neg (by simp), if_neg (by simp)]
            rw [markerTarget_cons_str k s _ hk]
            rw [if_neg (by simp [hse])]
      | null =>
        rw [show specMapF ((k, J.null) :: rest) r
            = (k, J.null) :: specMapF rest r from rfl]
        rw [markerTarget_cons_pos k _ _ hk, markerTarget_cons_pos k _ _ hk]
        rfl
      | bool b =>
        rw [show specMapF ((k, J.bool b) :: rest) r
            = (k, J.bool b) :: specMapF rest r from rfl]
        rw [markerTarget_cons_pos k _ _ hk, markerTarget_cons_pos k _ _ hk]
        rfl
      | num n =>
        rw [show specMapF ((k, J.num n) :: rest) r
            = (k, J.num n) :: specMapF rest r from rfl]
        rw [markerTarget_cons_pos k _ _ hk, markerTarget_cons_pos k _ _ hk]
        rfl
      | arr xs =>
        rw [show specMapF ((k, J.arr xs) :: rest) r
            = (k, J.arr (specMapL xs r)) :: specMapF rest r from rfl]
        rw [markerTarget_cons_pos k _ _ hk, markerTarget_cons_pos k _ _ hk]
        rfl
      | obj gs =>
        rw [show specMapF ((k, J.obj gs) :: rest) r
            = (k, J.obj (specMapF gs r)) :: specMapF rest r from rfl]
        rw [markerTarget_cons_pos k _ _ hk, markerTarget_cons_pos k _ _ hk]
        rfl
    · have hk' : (k == "Fn::ImportValue") = false := by
        simpa using hk
      have hcons : ∃ w, specMapF ((k, v) :: rest) r = (k, w) :: specMapF rest r := by
        cases v with
        | str s => exact ⟨_, rfl⟩
        | null => exact ⟨_, rfl⟩
        | bool b => exact ⟨_, rfl⟩
        | num n => exact ⟨_, rfl⟩
        | arr xs => exact ⟨_, rfl⟩
        | obj gs => exact ⟨_, rfl⟩
      obtain ⟨w, hw⟩ := hcons
      rw [hw, markerTarget_cons_neg k w _ hk', markerTarget_cons_neg k v _ hk']
      exact ih

theorem markerTarget_specMapF_none (r : List (String × String))
    (fs : List (String × J)) (h : markerTarget (.obj fs) = none) :
    markerTarget (.obj (specMapF fs r)) = none := by
  rw [markerTarget_specMapF r fs, h]
  rfl

theorem markerTarget_specMapF_keep (r : List (String × String))
    (fs : List (String × J)) (s : String) (h : markerTarget (.obj fs) = some s)
    (hr : rsTruthy r s = false) :
    markerTarget (.obj (specMapF fs r)) = some s := by
  rw [markerTarget_specMapF r fs, h]
  simp [hr]

theorem markerTarget_specMapF_repl (r : List (String × String))
    (fs : List (String × J)) (s v0 : String)
    (h : markerTarget (.obj fs) = some s) (hr : rsTruthy r s = true)
    (hv : rlookup r s = some v0) :
    markerTarget (.obj (specMapF fs r)) = some v0 := by
  rw [markerTarget_specMapF r fs, h]
  simp [hr, hv]

theorem findImports_specMapJ (r : List (String × String))
    (hrv : ∀ s v, rlookup r s = some v → sIncludes v "ExportsOutputFn" = false)
    (t : J) : ∀ p,
    findImportsJ (specMapJ t r) p
      = (findImportsJ t p).filter (fun imp => !(rsTruthy r imp.value)) := by
  induction t using J.inductionOn with
  | hnull => intro p; rfl
  | hbool b => intro p; rfl
  | hnum n => intro p; rfl
  | hstr s => intro p; rfl
  | harr elems ih =>
    intro p
    have hA : ∀ (xs : List J), (∀ x ∈ xs, ∀ q, findImportsJ (specMapJ x r) q
          = (findImportsJ x q).filter (fun imp => !(rsTruthy r imp.value))) →
        ∀ (i : Nat) (q : String), findImportsA (specMapL xs r) i q
          = (findImportsA xs i q).filter (fun imp => !(rsTruthy r imp.value)) := by
      intro xs hsub
      induction xs with
      | nil => intro i q; rfl
      | cons x rest ihx =>
        intro i q
        rw [show specMapL (x :: rest) r = specMapJ x r :: specMapL rest r
            from rfl]
        rw [show findImportsA (specMapJ x r :: specMapL rest r) i q
            = findImportsJ (specMapJ x r) (extendPath q (toString i))
              ++ findImportsA (specMapL rest r) (i + 1) q from rfl]
        rw [show findImportsA (x :: rest) i q
            = findImportsJ x (extendPath q (toString i))
              ++ findImportsA rest (i + 1) q from rfl]
        rw [List.filter_append, hsub x (by simp),
          ihx (fun y hy => hsub y (List.mem_cons_of_mem x hy)) (i + 1) q]
    rw [show specMapJ (.arr elems) r = .arr (specMapL elems r) from rfl]
    rw [show findImportsJ (.arr (specMapL elems r)) p
        = findImportsA (specMapL elems r) 0 p from rfl]
    rw [show findImportsJ (.arr elems) p = findImportsA elems 0 p from rfl]
    exact hA elems ih 0 p
  | hobj fields ih =>
    intro p
    have hF : ∀ (fs : List (String × J)), (∀ f ∈ fs, ∀ q,
          findImportsJ (specMapJ f.2 r) q
            = (findImportsJ f.2 q).filter (fun imp => !(rsTruthy r imp.value))) →
        ∀ (q : String), findImportsF (specMapF fs r) q
          = (findImportsF fs q).filter (fun imp => !(rsTruthy r imp.value)) := by
      intro fs hsub
      induction fs with
      | nil => intro q; rfl
      | cons f rest ihf =>
        intro q
        obtain ⟨k, v⟩ := f
        have hw : ∃ w, specMapF ((k, v) :: rest) r = (k, w) :: specMapF rest r ∧
            ∀ path, findImportsJ w path
              = (findImportsJ v path).filter
                  (fun imp => !(rsTruthy r imp.value)) := by
          cases v with
          | str s =>
            by_cases hc : ((k == "Fn::ImportValue") && s != ""
                && rsTruthy r s) = true
            · refine ⟨J.str ((rlookup r s).getD ""), ?_, fun path => rfl⟩
              rw [show specMapF ((k, J.str s) :: rest) r
                  = (k, if (k == "Fn::ImportValue") && s != "" && rsTruthy r s
                        then J.str ((rlookup r s).getD "") else J.str s)
                    :: specMapF rest r from rfl, if_pos hc]
            · refine ⟨J.str s, ?_, fun path => rfl⟩
              rw [show specMapF ((k, J.str s) :: rest) r
                  = (k, if (k == "Fn::ImportValue") && s != "" && rsTruthy r s
                        then J.str ((rlookup r s).getD "") else J.str s)
                    :: specMapF rest r from rfl, if_neg hc]
          | null => exact ⟨J.null, rfl, fun path => rfl⟩
          | bool b => exact ⟨J.bool b, rfl, fun path => rfl⟩
          | num n => exact ⟨J.num n, rfl, fun path => rfl⟩
          | arr xs =>
            exact ⟨specMapJ (J.arr xs) r, rfl,
              fun path => hsub (k, J.arr xs) (by simp) path⟩
          | obj gs =>
            exact ⟨specMapJ (J.obj gs) r, rfl,
              fun path => hsub (k, J.obj gs) (by simp) path⟩
        obtain ⟨w, hw1, hw2⟩ := hw
        rw [hw1]
        rw [show findImportsF ((k, w) :: specMapF rest r) q
            = findImportsJ w (extendPath q k)
              ++ findImportsF (specMapF rest r) q from rfl]
        rw [show findImportsF ((k, v) :: rest) q
            = findImportsJ v (extendPath q k) ++ findImportsF rest q from rfl]
        rw [List.filter_append, hw2 (extendPath q k),
          ihf (fun g hg => hsub g (List.mem_cons_of_mem (k, v) hg)) q]
    rw [show specMapJ (.obj fields) r = .obj (specMapF fields r) from rfl]
    rw [show findImportsJ (.obj (specMapF fields r)) p
        = (match markerTarget (.obj (specMapF fields r)) with
           | some s => if sIncludes s "ExportsOutputFn" then [ImportData.mk p s]
                       else []
           | none => []) ++ findImportsF (specMapF fields r) p from rfl]
    rw [show findImportsJ (.obj fields) p
        = (match markerTarget (.obj fields) with
           | some s => if sIncludes s "ExportsOutputFn" then [ImportData.mk p s]
                       else []
           | none => []) ++ findImportsF fields p from rfl]
    rw [List.filter_append, hF fields ih p]
    cases hmt : markerTarget (.obj fields) with
    | none =>
      rw [markerTarget_specMapF_none r fields hmt]
      rfl
    | some s =>
      cases hr : rsTruthy r s with
      | true =>
        obtain ⟨v0, hv0⟩ : ∃ v0, rlookup r s = some v0 := by
          unfold rsTruthy at hr
          cases hrl : rlookup r s with
          | none => rw [hrl] at hr; exact Bool.noConfusion hr
          | some v0 => exact ⟨v0, rfl⟩
        rw [markerTarget_specMapF_repl r fields s v0 hmt hr hv0]
        by_cases hins : sIncludes s "ExportsOutputFn" = true
        · simp [hrv s v0 hv0, hins, hr, List.filter]
        · simp [hrv s v0 hv0, hins, List.filter]
      | false =>
        rw [markerTarget_specMapF_keep r fields s hmt hr]
        by_cases hins : sIncludes s "ExportsOutputFn" = true
        · simp [hins, hr, List.filter]
        · simp [hins]

theorem analyzeTemplate_exports_specMapJ (p p2 : String) (c : J)
    (r : List (String × String)) (h : hasImportKey (outputsOf c) = false) :
    (analyzeTemplate p2 (specMapJ c r)).exportsOutputFn
        = (analyzeTemplate p c).exportsOutputFn ∧
    (analyzeTemplate p2 (specMapJ c r)).namedExports
        = (analyzeTemplate p c).namedExports := by
  have houts : outputsOf (specMapJ c r) = outputsOf c := by
    rw [outputsOf_specMapJ, specMapJ_id_of_no_key r _ h]
  constructor
  · show (analyzeOutputs (jEntries (outputsOf (specMapJ c r)))).1
        = (analyzeOutputs (jEntries (outputsOf c))).1
    rw [houts]
  · show (analyzeOutputs (jEntries (outputsOf (specMapJ c r)))).2
        = (analyzeOutputs (jEntries (outputsOf c))).2
    rw [houts]

theorem rlookup_mem {α : Type} (m : List (String × α)) (k : String) (v : α)
    (h : rlookup m k = some v) : (k, v) ∈ m := by
  unfold rlookup at h
  cases hf : m.find? (fun p => p.1 == k) with
  | none => rw [hf] at h; exact Option.noConfusion h
  | some q =>
    rw [hf] at h
    have hq2 : q.2 = v := Option.some.inj h
    have hqk := List.find?_some hf
    have hmem := List.mem_of_find?_eq_some hf
    have hq1 : q.1 = k := by simpa using hqk
    have hqe : q = (k, v) := by
      obtain ⟨a, b⟩ := q
      simp only at hq1 hq2
      rw [hq1, hq2]
    rw [← hqe]
    exact hmem

theorem replacements_values_no_marker (docs : List (String × J))
    (hnames : ∀ q ∈ allNamedExportsOf (analysesOf docs),
      sIncludes q.1 "ExportsOutputFn" = false) :
    ∀ s v, rlookup (replacementsAndCount (analysesOf docs)).1 s = some v →
      sIncludes v "ExportsOutputFn" = false := by
  intro s v h
  have hmem := rlookup_mem _ s v h
  have hmem2 : (s, v) ∈ ((analysesOf docs).foldl
      (fun ac a => a.exportsOutputFn.foldl
        (resolveStep (allNamedExportsOf (analysesOf docs))) ac) ([], 0)).1 := hmem
  rcases resolveFold_mem _ _ ([], 0) (s, v) hmem2 with h2 | h2
  · simp at h2
  · obtain ⟨a, ha, e, he, hkey, hfind, hne⟩ := h2
    obtain ⟨d, hd, hdv⟩ := findMatchingNamedExport_some _ _ _ _ hfind
    exact hnames (v, d) hd

theorem replace_changed_of_hit (r : List (String × String)) (t : J) :
    ∀ p imp, imp ∈ findImportsJ t p → rsTruthy r imp.value = true →
      (replaceImportsInObject t r).2 = true := by
  induction t using J.inductionOn with
  | hnull => intro p imp h; simp [findImportsJ] at h
  | hbool b => intro p imp h; simp [findImportsJ] at h
  | hnum n => intro p imp h; simp [findImportsJ] at h
  | hstr s => intro p imp h; simp [findImportsJ] at h
  | harr elems ih =>
    intro p imp hmem htr
    have hA : ∀ (xs : List J), (∀ x ∈ xs, ∀ q imp2, imp2 ∈ findImportsJ x q →
          rsTruthy r imp2.value = true →
          (replaceImportsInObject x r).2 = true) →
        ∀ (i : Nat) (q : String), imp ∈ findImportsA xs i q →
          (replaceImportsA xs r).2 = true := by
      intro xs hsub
      induction xs with
      | nil => intro i q h; simp [findImportsA] at h
      | cons x rest ihx =>
        intro i q h
        rw [show findImportsA (x :: rest) i q
            = findImportsJ x (extendPath q (toString i))
              ++ findImportsA rest (i + 1) q from rfl] at h
        rw [show (replaceImportsA (x :: rest) r).2
            = ((replaceImportsInObject x r).2 || (replaceImportsA rest r).2)
            from rfl]
        rcases List.mem_append.mp h with h2 | h2
        · rw [hsub x (by simp) _ imp h2 htr]
          rfl
        · rw [ihx (fun y hy => hsub y (List.mem_cons_of_mem x hy)) (i + 1) q h2]
          simp
    rw [show (replaceImportsInObject (.arr elems) r).2
        = (replaceImportsA elems r).2 from rfl]
    exact hA elems ih 0 p (by
      rw [show findImportsA elems 0 p = findImportsJ (.arr elems) p from rfl]
      exact hmem)
  | hobj fields ih =>
    intro p imp hmem htr
    have hF : ∀ (fs : List (String × J)), (∀ f ∈ fs, ∀ q imp2,
          imp2 ∈ findImportsJ f.2 q → rsTruthy r imp2.value = true →
          (replaceImportsInObject f.2 r).2 = true) →
        ∀ (q : String), imp ∈ findImportsF fs q →
          (replaceImportsF fs r).2 = true := by
      intro fs hsub
      induction fs with
      | nil => intro q h; simp [findImportsF] at h
      | cons f rest ihf =>
        intro q h
        obtain ⟨k, v⟩ := f
        rw [show findImportsF ((k, v) :: rest) q
            = findImportsJ v (extendPath q k) ++ findImportsF rest q
            from rfl] at h
        rw [show (replaceImportsF ((k, v) :: rest) r).2
            = ((replaceImportsInObject v r).2 || (replaceImportsF rest r).2)
            from rfl]
        rcases List.mem_append.mp h with h2 | h2
        · rw [hsub (k, v) (by simp) _ imp h2 htr]
          rfl
        · rw [ihf (fun g hg => hsub g (List.mem_cons_of_mem (k, v) hg)) q h2]
          simp
    rw [show findImportsJ (.obj fields) p
        = (match markerTarget (.obj fields) with
           | some s => if sIncludes s "ExportsOutputFn" then [ImportData.mk p s]
                       else []
           | none => []) ++ findImportsF fields p from rfl] at hmem
    rcases List.mem_append.mp hmem with h2 | h2
    · cases hmt : markerTarget (.obj fields) with
      | none => rw [hmt] at h2; simp at h2
      | some s =>
        rw [hmt] at h2
        have h3 : imp ∈ (if sIncludes s "ExportsOutputFn" = true
            then [ImportData.mk p s] else []) := h2
        by_cases hins : sIncludes s "ExportsOutputFn" = true
        · rw [if_pos hins] at h3
          have himp : imp = ImportData.mk p s := List.mem_singleton.mp h3
          have hts : rsTruthy r s = true := by
            rw [himp] at htr
            exact htr
          obtain ⟨v0, hv0, hne⟩ : ∃ v0, rlookup r s = some v0 ∧ v0 ≠ "" := by
            unfold rsTruthy at hts
            cases hrl : rlookup r s with
            | none => rw [hrl] at hts; exact Bool.noConfusion hts
            | some v0 =>
              rw [hrl] at hts
              exact ⟨v0, rfl, by simpa using hts⟩
          have hv' : (v0 == "") = false := by simp [hne]
          rw [show replaceImportsInObject (.obj fields) r
              = (.obj (assignKey fields "Fn::ImportValue" (.str v0)), true)
              from by simp [replaceImportsInObject, hmt, hv0, hv']]
        · rw [if_neg hins] at h3
          simp at h3
    · have htail := hF fields ih p h2
      cases hmt : markerTarget (.obj fields) with
      | none =>
        rw [show replaceImportsInObject (.obj fields) r
            = (.obj ((replaceImportsF fields r).1), (replaceImportsF fields r).2)
            from by simp [replaceImportsInObject, hmt]]
        exact htail
      | some s =>
        cases hrl : rlookup r s with
        | none =>
          rw [show replaceImportsInObject (.obj fields) r
              = (.obj ((replaceImportsF fields r).1),
                 (replaceImportsF fields r).2)
              from by simp [replaceImportsInObject, hmt, hrl]]
          exact htail
        | some v0 =>
          by_cases hve : v0 = ""
          · rw [show replaceImportsInObject (.obj fields) r
                = (.obj ((replaceImportsF fields r).1),
                   (replaceImportsF fields r).2)
                from by simp [replaceImportsInObject, hmt, hrl, hve]]
            exact htail
          · have hv' : (v0 == "") = false := by simp [hve]
            rw [show replaceImportsInObject (.obj fields) r
                = (.obj (assignKey fields "Fn::ImportValue" (.str v0)), true)
                from by simp [replaceImportsInObject, hmt, hrl, hv']]

theorem applyStep_eq (repl : List (String × String))
    (acc : List (String × J) × Nat) (a : AnalysisResult) :
    applyStep repl acc a
      = (acc.1 ++ (applyWriteOf repl a).toList,
         acc.2 + (a.imports.filter (fun imp => rsTruthy repl imp.value)).length) := by
  unfold applyStep applyWriteOf
  by_cases hhit : (a.imports.filter (fun imp => rsTruthy repl imp.value)).isEmpty
  · rw [if_pos hhit, if_pos hhit]
    simp
  · rw [if_neg hhit, if_neg hhit]
    by_cases hch : (replaceImportsInObject a.content repl).2 = true
    · rw [if_pos hch, if_pos hch]
      simp
    · rw [if_neg hch, if_neg hch]
      simp

theorem applyFold_eq (repl : List (String × String))
    (as : List AnalysisResult) :
    ∀ (acc : List (String × J) × Nat),
      as.foldl (applyStep repl) acc
        = (acc.1 ++ as.filterMap (applyWriteOf repl),
           acc.2 + (as.map (fun a =>
             (a.imports.filter (fun imp => rsTruthy repl imp.value)).length)).sum) := by
  induction as with
  | nil => intro acc; simp
  | cons a rest ih =>
    intro acc
    rw [show (a :: rest).foldl (applyStep repl) acc
        = rest.foldl (applyStep repl) (applyStep repl acc a) from rfl]
    rw [ih (applyStep repl acc a), applyStep_eq]
    cases hW : applyWriteOf repl a with
    | none =>
      simp [List.filterMap_cons, hW]
      omega
    | some w =>
      simp [List.filterMap_cons, hW]
      omega

theorem applyWriteOf_path (repl : List (String × String)) (a : AnalysisResult)
    (w : String × J) (h : applyWriteOf repl a = some w) :
    w.1 = a.filePath ∧ w.2 = (replaceImportsInObject a.content repl).1 ∧
    ¬ (a.imports.filter (fun imp => rsTruthy repl imp.value)).isEmpty = true ∧
    (replaceImportsInObject a.content repl).2 = true := by
  unfold applyWriteOf at h
  by_cases hhit : (a.imports.filter (fun imp => rsTruthy repl imp.value)).isEmpty
  · rw [if_pos hhit] at h
    exact Option.noConfusion h
  · rw [if_neg hhit] at h
    by_cases hch : (replaceImportsInObject a.content repl).2 = true
    · rw [if_pos hch] at h
      have := Option.some.inj h
      rw [← this]
      exact ⟨rfl, rfl, hhit, hch⟩
    · rw [if_neg hch] at h
      exact Option.noConfusion h

theorem applyWriteOf_none (repl : List (String × String)) (a : AnalysisResult)
    (h : (a.imports.filter (fun imp => rsTruthy repl imp.value)) = []) :
    applyWriteOf repl a = none := by
  unfold applyWriteOf
  rw [if_pos (by rw [h]; rfl)]

theorem writes_find (repl : List (String × String)) (docs : List (String × J))
    (hpaths : (docs.map (·.1)).Nodup) :
    ∀ d ∈ docs,
      ((analysesOf docs).filterMap (applyWriteOf repl)).reverse.find?
          (fun w => w.1 == d.1)
        = applyWriteOf repl (analyzeTemplate d.1 d.2) := by
  induction docs with
  | nil => intro d h; simp at h
  | cons e rest ih =>
    intro d hd
    have hpaths' : e.1 ∉ rest.map (·.1) ∧ (rest.map (·.1)).Nodup := by
      rw [show (e :: rest).map (·.1) = e.1 :: rest.map (·.1) from rfl] at hpaths
      exact List.nodup_cons.mp hpaths
    rw [show (analysesOf (e :: rest)).filterMap (applyWriteOf repl)
        = (applyWriteOf repl (analyzeTemplate e.1 e.2)).toList
          ++ (analysesOf rest).filterMap (applyWriteOf repl) from by
      rw [show analysesOf (e :: rest)
          = analyzeTemplate e.1 e.2 :: analysesOf rest from rfl,
        List.filterMap_cons]
      cases applyWriteOf repl (analyzeTemplate e.1 e.2) <;> rfl]
    rw [List.reverse_append, List.find?_append]
    rcases List.mem_cons.mp hd with hde | hdr
    · subst hde
      have htail : ((analysesOf rest).filterMap
          (applyWriteOf repl)).reverse.find? (fun w => w.1 == d.1) = none := by
        rw [List.find?_eq_none]
        intro w hw
        obtain ⟨a, ha, hWa⟩ := List.mem_filterMap.mp (List.mem_reverse.mp hw)
        have hw1 := (applyWriteOf_path repl a w hWa).1
        have hmem : a.filePath ∈ rest.map (·.1) := by
          rw [← analysesOf_paths rest]
          exact List.mem_map_of_mem _ ha
        intro hcontra
        have hwd : w.1 = d.1 := by simpa using hcontra
        have hda : d.1 = a.filePath := by rw [← hwd, hw1]
        exact hpaths'.1 (by rw [hda]; exact hmem)
      rw [htail]
      cases hW : applyWriteOf repl (analyzeTemplate d.1 d.2) with
      | none => rfl
      | some w =>
        have hw1 : w.1 = d.1 := (applyWriteOf_path repl _ w hW).1
        rw [show (some w).toList.reverse = [w] from rfl]
        rw [List.find?_cons_of_pos _ (by simp [hw1])]
        rfl
    · have hne : (rest.map (·.1)).Nodup := hpaths'.2
      rw [ih hne d hdr]
      cases hW : applyWriteOf repl (analyzeTemplate d.1 d.2) with
      | some w => rfl
      | none =>
        cases hWe : applyWriteOf repl (analyzeTemplate e.1 e.2) with
        | none => rfl
        | some we =>
          have hwe1 : we.1 = e.1 := (applyWriteOf_path repl _ we hWe).1
          have hed : e.1 ≠ d.1 := by
            intro hcontra
            exact hpaths'.1 (hcontra ▸ List.mem_map_of_mem (·.1) hdr)
          rw [show (some we).toList.reverse = [we] from rfl]
          rw [show List.find? (fun w => w.1 == d.1) [we] = none from by
            rw [List.find?_cons_of_neg _ (by simp [hwe1, hed])]
            rfl]
          rfl

theorem applyWrites_eq (repl : List (String × String))
    (docs : List (String × J)) (hpaths : (docs.map (·.1)).Nodup) :
    applyWrites docs ((analysesOf docs).filterMap (applyWriteOf repl))
      = docs.map (postDoc repl) := by
  unfold applyWrites postDoc
  apply List.map_congr_left
  intro d hd
  rw [writes_find repl docs hpaths d hd]

theorem applyWrites_nil (docs : List (String × J)) :
    applyWrites docs [] = docs := by
  unfold applyWrites
  rw [show docs.map (fun f =>
      match ([] : List (String × J)).reverse.find? (fun w => w.1 == f.1) with
      | some w => (f.1, w.2)
      | none => f) = docs.map (fun f => f) from rfl]
  exact List.map_id' docs

theorem allNamedExportsOf_congr (as bs : List AnalysisResult)
    (hn : as.map (·.namedExports) = bs.map (·.namedExports)) :
    allNamedExportsOf as = allNamedExportsOf bs := by
  unfold allNamedExportsOf
  rw [← List.foldl_map (·.namedExports) (fun acc x => objAssign acc x) as [],
    ← List.foldl_map (·.namedExports) (fun acc x => objAssign acc x) bs [],
    hn]

theorem replacementsAndCount_congr (as bs : List AnalysisResult)
    (he : as.map (·.exportsOutputFn) = bs.map (·.exportsOutputFn))
    (hn : as.map (·.namedExports) = bs.map (·.namedExports)) :
    replacementsAndCount as = replacementsAndCount bs := by
  unfold replacementsAndCount
  rw [allNamedExportsOf_congr as bs hn]
  rw [← List.foldl_map (·.exportsOutputFn)
      (fun ac es => es.foldl (resolveStep (allNamedExportsOf bs)) ac) as ([], 0),
    ← List.foldl_map (·.exportsOutputFn)
      (fun ac es => es.foldl (resolveStep (allNamedExportsOf bs)) ac) bs ([], 0),
    he]

theorem applyWriteOf_none_hits (repl : List (String × String)) (p : String)
    (c : J) (h : applyWriteOf repl (analyzeTemplate p c) = none) :
    (analyzeTemplate p c).imports.filter (fun imp => rsTruthy repl imp.value)
      = [] := by
  unfold applyWriteOf at h
  by_cases hhit : ((analyzeTemplate p c).imports.filter
      (fun imp => rsTruthy repl imp.value)).isEmpty
  · exact List.isEmpty_iff.mp hhit
  · rw [if_neg hhit] at h
    by_cases hch : (replaceImportsInObject (analyzeTemplate p c).content repl).2
        = true
    · rw [if_pos hch] at h
      exact Option.noConfusion h
    · exfalso
      have hne : (analyzeTemplate p c).imports.filter
          (fun imp => rsTruthy repl imp.value) ≠ [] := by
        intro h0
        exact hhit (by rw [h0]; rfl)
      obtain ⟨imp, himp⟩ := List.exists_mem_of_ne_nil _ hne
      have h1 := List.mem_filter.mp himp
      have h2 : imp ∈ findImportsJ c "" := h1.1
      exact hch (replace_changed_of_hit repl c "" imp h2 h1.2)

theorem filter_truthy_of_filter_not (repl : List (String × String))
    (l : List ImportData) :
    (l.filter (fun imp => !(rsTruthy repl imp.value))).filter
        (fun imp => rsTruthy repl imp.value) = [] := by
  rw [List.filter_eq_nil_iff]
  intro imp hmem
  have h1 := (List.mem_filter.mp hmem).2
  simp only [Bool.not_eq_true'] at h1
  simp [h1]

/-! ## Claim C5 — idempotence -/

/-- C5 counterexample: a named export whose name both carries the synthetic
marker as a substring and is the (equal-valued) synthetic export's own
export name makes the resolver map that name to itself; the reference is
then "replaced" (by itself) on every run, so the second run performs one
replacement, not zero. -/
theorem C5_counterexample :
    ¬ ((secondRun [("f", exDocSelf)]).totalReplacements = 0) := by decide

/-- C5 amended: running the pipeline twice produces zero additional
replacements — and no write — on the second run, provided the document set
is well formed for this transformation: file paths are distinct, every
mapping has duplicate-free keys, every mapping carrying a replaceable
marker is a single-entry mapping, no `"Fn::ImportValue"` key occurs
anywhere inside a document's Outputs subtree (a replaceable marker inside
an output's Value would be rewritten by the first run, changing that
export's value and letting the second run find a fresh match), and no
named export's name contains `"ExportsOutputFn"` as a substring (so a
rewritten reference never looks synthetic again). -/
theorem C5_amended_idempotent (docs : List (String × J))
    (hpaths : (docs.map (·.1)).Nodup)
    (hjw : ∀ d ∈ docs, jwf d.2 = true)
    (hnest : ∀ d ∈ docs,
      okNestJ (replacementsAndCount (analysesOf docs)).1 d.2 = true)
    (houts : ∀ d ∈ docs, hasImportKey (outputsOf d.2) = false)
    (hnames : ∀ q ∈ allNamedExportsOf (analysesOf docs),
      sIncludes q.1 "ExportsOutputFn" = false) :
    (secondRun docs).totalReplacements = 0 ∧ (secondRun docs).writes = [] := by
  unfold secondRun
  by_cases hmc : (replacementsAndCount (analysesOf docs)).2 = 0
  · have hrun1 : runPipeline docs = ⟨[], 0, 0⟩ := by
      unfold runPipeline
      rw [if_pos hmc]
    rw [hrun1]
    rw [show (⟨[], 0, 0⟩ : RunResult).writes = [] from rfl, applyWrites_nil]
    rw [hrun1]
    exact ⟨rfl, rfl⟩
  · have hrv : ∀ s v,
        rlookup (replacementsAndCount (analysesOf docs)).1 s = some v →
        sIncludes v "ExportsOutputFn" = false :=
      replacements_values_no_marker docs hnames
    have hrun1w : (runPipeline docs).writes
        = (analysesOf docs).filterMap
            (applyWriteOf (replacementsAndCount (analysesOf docs)).1) := by
      unfold runPipeline
      rw [if_neg hmc]
      show ((analysesOf docs).foldl
          (applyStep (replacementsAndCount (analysesOf docs)).1) ([], 0)).1 = _
      rw [applyFold_eq]
      rfl
    rw [hrun1w, applyWrites_eq _ docs hpaths]
    have hpost : ∀ d ∈ docs,
        (postDoc (replacementsAndCount (analysesOf docs)).1 d).1 = d.1 ∧
        ((postDoc (replacementsAndCount (analysesOf docs)).1 d).2 = d.2 ∨
          ((postDoc (replacementsAndCount (analysesOf docs)).1 d).2
              = specMapJ d.2 (replacementsAndCount (analysesOf docs)).1 ∧
            applyWriteOf (replacementsAndCount (analysesOf docs)).1
              (analyzeTemplate d.1 d.2) ≠ none)) := by
      intro d hd
      unfold postDoc
      cases hW : applyWriteOf (replacementsAndCount (analysesOf docs)).1
          (analyzeTemplate d.1 d.2) with
      | none => exact ⟨rfl, Or.inl rfl⟩
      | some w =>
        refine ⟨rfl, Or.inr ⟨?_, by simp⟩⟩
        show w.2 = _
        have h1 := (applyWriteOf_path _ _ w hW).2.1
        rw [h1]
        exact rewrite_eq_specMap d.2 _ (hjw d hd) (hnest d hd)
    have hexp : ∀ d ∈ docs,
        (analyzeTemplate
            (postDoc (replacementsAndCount (analysesOf docs)).1 d).1
            (postDoc (replacementsAndCount (analysesOf docs)).1 d).2).exportsOutputFn
          = (analyzeTemplate d.1 d.2).exportsOutputFn ∧
        (analyzeTemplate
            (postDoc (replacementsAndCount (analysesOf docs)).1 d).1
            (postDoc (replacementsAndCount (analysesOf docs)).1 d).2).namedExports
          = (analyzeTemplate d.1 d.2).namedExports := by
      intro d hd
      obtain ⟨hp1, hp2⟩ := hpost d hd
      rcases hp2 with hp2 | ⟨hp2, -⟩
      · rw [hp1, hp2]
        exact ⟨rfl, rfl⟩
      · rw [hp1, hp2]
        exact analyzeTemplate_exports_specMapJ
          (postDoc (replacementsAndCount (analysesOf docs)).1 d).1 d.1 d.2 _
          (houts d hd)
    have hhits : ∀ d ∈ docs,
        (analyzeTemplate
            (postDoc (replacementsAndCount (analysesOf docs)).1 d).1
            (postDoc (replacementsAndCount (analysesOf docs)).1 d).2).imports.filter
          (fun imp =>
            rsTruthy (replacementsAndCount (analysesOf docs)).1 imp.value)
          = [] := by
      intro d hd
      unfold postDoc
      cases hW : applyWriteOf (replacementsAndCount (analysesOf docs)).1
          (analyzeTemplate d.1 d.2) with
      | none => exact applyWriteOf_none_hits _ d.1 d.2 hW
      | some w =>
        have hw2 : w.2 = specMapJ d.2 (replacementsAndCount (analysesOf docs)).1 := by
          have h1 := (applyWriteOf_path _ _ w hW).2.1
          rw [h1]
          exact rewrite_eq_specMap d.2 _ (hjw d hd) (hnest d hd)
        show (findImportsJ w.2 "").filter _ = []
        rw [hw2, findImports_specMapJ _ hrv d.2 ""]
        exact filter_truthy_of_filter_not _ _
    have hmapsE : (analysesOf (docs.map
        (postDoc (replacementsAndCount (analysesOf docs)).1))).map
          (·.exportsOutputFn)
        = (analysesOf docs).map (·.exportsOutputFn) := by
      unfold analysesOf
      rw [List.map_map, List.map_map, List.map_map]
      exact List.map_congr_left (fun d hd => (hexp d hd).1)
    have hmapsN : (analysesOf (docs.map
        (postDoc (replacementsAndCount (analysesOf docs)).1))).map
          (·.namedExports)
        = (analysesOf docs).map (·.namedExports) := by
      unfold analysesOf
      rw [List.map_map, List.map_map, List.map_map]
      exact List.map_congr_left (fun d hd => (hexp d hd).2)
    have hrc2 := replacementsAndCount_congr _ _ hmapsE hmapsN
    simp only [runPipeline]
    rw [hrc2, if_neg hmc, applyFold_eq]
    constructor
    · show (0 + ((analysesOf _).map _).sum : Nat) = 0
      rw [Nat.zero_add]
      apply List.sum_eq_zero
      intro x hx
      obtain ⟨a, ha, hax⟩ := List.mem_map.mp hx
      rw [← hax]
      have hfe : a.imports.filter (fun imp =>
          rsTruthy (replacementsAndCount (analysesOf docs)).1 imp.value) = [] := by
        unfold analysesOf at ha
        obtain ⟨d2, hd2, had⟩ := List.mem_map.mp ha
        obtain ⟨d, hd, hdd⟩ := List.mem_map.mp hd2
        rw [← had, ← hdd]
        exact hhits d hd
      rw [hfe]
      rfl
    · show ([] ++ (analysesOf _).filterMap _ : List (String × J)) = []
      rw [List.nil_append]
      rw [List.filterMap_eq_nil]
      intro a ha
      unfold analysesOf at ha
      obtain ⟨d2, hd2, had⟩ := List.mem_map.mp ha
      obtain ⟨d, hd, hdd⟩ := List.mem_map.mp hd2
      rw [← had, ← hdd]
      exact applyWriteOf_none _ _ (hhits d hd)

theorem C5_amended_idempotent_witness :
    (secondRun [("x", exDocX), ("y", exDocY)]).totalReplacements = 0 ∧
    (secondRun [("x", exDocX), ("y", exDocY)]).writes = [] :=
  C5_amended_idempotent [("x", exDocX), ("y", exDocY)]
    (by decide) (by decide) (by decide) (by decide) (by decide)
